import Mathlib

/-!
Verification development for the TDT (Token-and-Duration Transducer) beam-search
decoder in `nemo/collections/asr/parts/submodules/tdt_beam_decoding.py`.

The decoder logic is shallowly embedded here.  Scores are elements of a generic
linear ordered field `S` (instantiated with `ℚ` for concrete executions and with
`ℝ` where properties of the real log-add-exp are proved).  The external neural
collaborators (prediction network, joint network followed by `log_softmax`, the
KenLM scorer, and numpy's `logaddexp`) are modelled as oracle functions, exactly
as the specification's test plan mocks them ("the predictor/joint/LM are mocked
to return fixed tables").  The prediction-network output for a hypothesis is a
deterministic function of its token sequence (the source caches decoder outputs
keyed by the token sequence), so decoder outputs are represented by the token
sequence that produced them, and the KenLM state by the list of consumed tokens.

Python's `sorted` is a stable sort; it is embedded with `List.insertionSort`,
which is stable for the total preorders used here, hence produces the same list.
-/

namespace TDT

/-- The `Hypothesis` record of `rnnt_utils`, restricted to the fields the beam
search reads or writes: `score`, `y_sequence`, `timestep`, `last_frame`,
`dec_out` (decoder outputs, represented by the token sequence each was computed
from) and the KenLM state (represented by the tokens consumed so far).  The
opaque `dec_state` and the write-only `length` field are not modelled. -/
structure Hyp (S : Type) where
  score : S
  ySeq : List ℕ
  timestep : List ℤ
  lastFrame : ℕ
  decOut : List (List ℕ)
  lmState : List ℕ

/-- Deduplication key used by `remove_duplicate_hypotheses`: the pair
`(y_sequence, last_frame)`. -/
def hypKey {S : Type} (h : Hyp S) : List ℕ × ℕ := (h.ySeq, h.lastFrame)

/-- The sentinel-blank shape of a token sequence: position 0 holds the blank
id and no later position does. -/
def seqInv (blank : ℕ) (l : List ℕ) : Prop :=
  l.head? = some blank ∧ ∀ x ∈ l.tail, x ≠ blank

variable {S : Type} [LinearOrderedCommRing S]

instance : DecidableEq (Hyp S) := fun a b => by
  cases a; cases b
  exact decidable_of_iff _ (Iff.of_eq (Hyp.mk.injEq _ _ _ _ _ _ _ _ _ _ _ _)).symm

/-- Relation for `sorted(key=lambda x: x.score, reverse=True)`. -/
def scoreGE (a b : Hyp S) : Prop := b.score ≤ a.score

/-- Relation for `sorted(key=lambda x: x.score)` (ascending). -/
def scoreLE (a b : Hyp S) : Prop := a.score ≤ b.score

/-- Relation for `sorted(key=lambda x: len(x.y_sequence), reverse=True)`. -/
def lenGE (a b : Hyp S) : Prop := b.ySeq.length ≤ a.ySeq.length

instance : DecidableRel (scoreGE (S := S)) :=
  fun a b => inferInstanceAs (Decidable (b.score ≤ a.score))

instance : DecidableRel (scoreLE (S := S)) :=
  fun a b => inferInstanceAs (Decidable (a.score ≤ b.score))

instance : DecidableRel (lenGE (S := S)) :=
  fun a b => inferInstanceAs (Decidable (b.ySeq.length ≤ a.ySeq.length))

instance : IsTotal (Hyp S) (scoreGE (S := S)) := ⟨fun a b => le_total b.score a.score⟩

instance : IsTrans (Hyp S) (scoreGE (S := S)) :=
  ⟨fun _ _ _ h1 h2 => le_trans h2 h1⟩

instance : IsTotal (Hyp S) (scoreLE (S := S)) := ⟨fun a b => le_total a.score b.score⟩

instance : IsTrans (Hyp S) (scoreLE (S := S)) :=
  ⟨fun _ _ _ h1 h2 => le_trans h1 h2⟩

instance : IsTotal (Hyp S) (lenGE (S := S)) :=
  ⟨fun a b => le_total b.ySeq.length a.ySeq.length⟩

instance : IsTrans (Hyp S) (lenGE (S := S)) :=
  ⟨fun _ _ _ h1 h2 => le_trans h2 h1⟩

/-- `sorted(hypotheses, key=lambda x: x.score, reverse=True)` (stable). -/
def sortDescScore (l : List (Hyp S)) : List (Hyp S) :=
  List.insertionSort scoreGE l

/-- `sorted(hypotheses, key=lambda x: x.score)` (stable, ascending). -/
def sortAscScore (l : List (Hyp S)) : List (Hyp S) :=
  List.insertionSort scoreLE l

/-- `sorted(hyps, key=lambda x: len(x.y_sequence), reverse=True)` (stable). -/
def sortDescLen (l : List (Hyp S)) : List (Hyp S) :=
  List.insertionSort lenGE l

/-- Relation ordering `(index, value)` pairs by value, descending. -/
def pairValGE (a b : ℕ × S) : Prop := b.2 ≤ a.2

instance : DecidableRel (pairValGE (S := S)) :=
  fun a b => inferInstanceAs (Decidable (b.2 ≤ a.2))

instance : IsTotal (ℕ × S) (pairValGE (S := S)) := ⟨fun a b => le_total b.2 a.2⟩

instance : IsTrans (ℕ × S) (pairValGE (S := S)) := ⟨fun _ _ _ h1 h2 => le_trans h2 h1⟩

/-- `torch.topk(xs, k)`: the `k` largest entries of `xs`, as `(index, value)`
pairs sorted by value descending (ties resolved by position, stably). -/
def topkDesc (k : ℕ) (xs : List S) : List (ℕ × S) :=
  (List.insertionSort pairValGE xs.enum).take k

/-- The linear scan of `remove_duplicate_hypotheses`: walk the (already sorted)
list and keep a hypothesis only when no previously kept hypothesis has the same
`y_sequence` and `last_frame`. -/
def dedupScan : List (Hyp S) → List (Hyp S) → List (Hyp S)
  | kept, [] => kept
  | kept, h :: rest =>
    if kept.any (fun k => decide (k.ySeq = h.ySeq) && decide (k.lastFrame = h.lastFrame)) then
      dedupScan kept rest
    else
      dedupScan (kept ++ [h]) rest

/-- `remove_duplicate_hypotheses`: sort by score descending (stable), then keep
the first occurrence of every `(y_sequence, last_frame)` key. -/
def removeDuplicateHypotheses (l : List (Hyp S)) : List (Hyp S) :=
  dedupScan [] (sortDescScore l)

/-- Reference definition following the spec's words (for the refinement claim
about duplicate suppression): for a key, the representative is the
maximum-scored hypothesis with that key, the earliest such in input order among
equal scores ("first seen wins"). -/
def firstMaxByKey (l : List (Hyp S)) (κ : List ℕ × ℕ) : Option (Hyp S) :=
  match ((l.filter (fun h => decide (hypKey h = κ))).map Hyp.score).max? with
  | none => none
  | some m => (l.filter (fun h => decide (hypKey h = κ))).find? (fun h => decide (h.score = m))

/-- The candidate pool built inside `select_k_expansions_durations`: the full
Cartesian product of top-k tokens and top-k durations, each candidate scored
`hyp.score + float(logp + duration_logp)`. -/
def kExpansionCandidates (score : S) (toks durs : List (ℕ × S)) : List (ℕ × ℕ × S) :=
  toks.flatMap (fun t => durs.map (fun d => (t.1, d.1, score + (t.2 + d.2))))

/-- Relation ordering expansion triples `(token, duration_idx, score)` by score
ascending (the `sorted(..., key=lambda x: x[2])` in the source). -/
def expLE (a b : ℕ × ℕ × S) : Prop := a.2.2 ≤ b.2.2

instance : DecidableRel (expLE (S := S)) :=
  fun a b => inferInstanceAs (Decidable (a.2.2 ≤ b.2.2))

instance : IsTotal (ℕ × ℕ × S) (expLE (S := S)) := ⟨fun a b => le_total a.2.2 b.2.2⟩

instance : IsTrans (ℕ × ℕ × S) (expLE (S := S)) := ⟨fun _ _ _ h1 h2 => le_trans h1 h2⟩

/-- Per-hypothesis body of `select_k_expansions_durations`: build the candidate
pool, find the best score, keep the candidates within `gamma` of it, sorted by
score ascending.  The source raises on an empty pool (`max` of an empty list);
that case is unreachable from the search and is mapped to `[]`. -/
def kExpansionsFor (score : S) (toks durs : List (ℕ × S)) (gamma : S) :
    List (ℕ × ℕ × S) :=
  match ((kExpansionCandidates score toks durs).map (fun x => x.2.2)).max? with
  | none => []
  | some best =>
    List.insertionSort expLE
      ((kExpansionCandidates score toks durs).filter (fun x => decide (best - gamma ≤ x.2.2)))

/-- `select_k_expansions_durations`: apply the per-hypothesis selection to each
hypothesis, zipping each one's top-k token and duration indices with their
log-probabilities. -/
def selectKExpansionsDurations (hyps : List (Hyp S))
    (topkIdxs : List (List ℕ)) (topkLogps : List (List S))
    (topkDurIdxs : List (List ℕ)) (topkDurLogps : List (List S))
    (gamma : S) : List (List (ℕ × ℕ × S)) :=
  hyps.enum.map (fun ih =>
    kExpansionsFor ih.2.score
      ((topkIdxs.getD ih.1 []).zip (topkLogps.getD ih.1 []))
      ((topkDurIdxs.getD ih.1 []).zip (topkDurLogps.getD ih.1 []))
      gamma)

/-- Decoder hyperparameters fixed at construction (`BeamTDTInfer.__init__`).
`maxCandidates` is `beam_size + maes_expansion_beta` and
`tdtDurationBeamSize` is the constant 2 from the source. -/
structure TDTConfig (S : Type) where
  beamSize : ℕ
  vocabSize : ℕ
  blank : ℕ
  durations : List ℕ
  scoreNorm : Bool
  maesNumSteps : ℕ
  maesPrefixAlpha : ℕ
  maesExpansionGamma : S
  maxCandidates : ℕ
  tdtDurationBeamSize : ℕ
  ngramOn : Bool
  ngramAlpha : S

/-- `self.durations.index(0)`, `None` when 0 is absent. -/
def TDTConfig.zeroDurationIdx (cfg : TDTConfig S) : Option ℕ :=
  cfg.durations.findIdx? (fun d => decide (d = 0))

/-- `np.argmin(np.ma.masked_where(durations == 0, durations))`: the first index
holding the smallest non-zero duration (0 when every duration is masked). -/
def TDTConfig.minNonZeroDurationIdx (cfg : TDTConfig S) : ℕ :=
  match (cfg.durations.filter (fun d => decide (d ≠ 0))).min? with
  | none => 0
  | some m => cfg.durations.findIdx (fun d => decide (d = m))

/-- `beam = min(self.beam_size, self.vocab_size)`. -/
def TDTConfig.beam (cfg : TDTConfig S) : ℕ := min cfg.beamSize cfg.vocabSize

/-- Python truthiness of `self.zero_duration_idx` (`None` and `0` are falsy).
This is the guard the source uses in mAES line
`if k == self.blank and self.zero_duration_idx and duration_idx == ...`. -/
def TDTConfig.zeroIdxTruthy (cfg : TDTConfig S) : Bool :=
  match cfg.zeroDurationIdx with
  | none => false
  | some n => decide (n ≠ 0)

/-- External collaborators, mocked as fixed tables exactly as in the spec's
test plan.  `tok t key` / `dur t key` are the vocabulary and duration
log-probability rows produced by `log_softmax` of the joint logits at encoder
frame `t` for the decoder output identified by `key` (the token sequence it was
computed from).  `lm state token` is the converted KenLM score
(`compute_ngram_score`), with the KenLM state identified by the consumed
tokens.  `logAddExp` is numpy's `logaddexp` primitive; the theorems about
prefix correction instantiate it with the real log-add-exp. -/
structure TDTOracle (S : Type) where
  tok : ℕ → List ℕ → List S
  dur : ℕ → List ℕ → List S
  lm : List ℕ → ℕ → S
  logAddExp : S → S → S

/-- The most recent cached decoder output of a hypothesis (`hyp.dec_out[-1]`). -/
def lastDecOut (h : Hyp S) : List ℕ := h.decOut.getLastD []

/-- Modelled from the spec: `is_prefix(x, pref)` is imported from
`rnnt_utils`, which is not part of the sources; per spec section 4.4 it holds
when the second sequence is a strict prefix of the first. -/
def isPrefixHyp (x pref : List ℕ) : Bool :=
  pref.isPrefixOf x && decide (pref.length < x.length)

/-- The score accumulated by `prefix_search` for one `(curr, pref)` pair: start
from the prefix hypothesis's score, score the first token after the prefix with
the prefix's cached decoder output, then walk the remaining positions using the
longer hypothesis's cached decoder outputs, always taking the zero-duration
log-probability; each consumed token optionally adds the weighted LM score. -/
def prefixStepScore (cfg : TDTConfig S) (o : TDTOracle S) (t : ℕ)
    (cur pref : Hyp S) : S :=
  let zIdx := cfg.zeroDurationIdx.getD 0
  let prefLen := pref.ySeq.length
  let curLen := cur.ySeq.length
  let tok0 := cur.ySeq.getD prefLen 0
  let row0 := o.tok t (lastDecOut pref)
  let drow0 := o.dur t (lastDecOut pref)
  let s0 := pref.score + (row0.getD tok0 0 + drow0.getD zIdx 0)
  let s0 := if cfg.ngramOn then s0 + cfg.ngramAlpha * o.lm pref.lmState tok0 else s0
  let init : S × List ℕ := (s0, pref.lmState ++ [tok0])
  ((List.range' prefLen (curLen - 1 - prefLen)).foldl
    (fun acc k =>
      let tokk := cur.ySeq.getD (k + 1) 0
      let rowk := o.tok t (cur.decOut.getD k [])
      let drowk := o.dur t (cur.decOut.getD k [])
      let s := acc.1 + (rowk.getD tokk 0 + drowk.getD zIdx 0)
      let s := if cfg.ngramOn then s + cfg.ngramAlpha * o.lm acc.2 tokk else s
      (s, acc.2 ++ [tokk]))
    init).1

/-- One inner-loop step of `prefix_search`: when `pref` is a strict prefix of
`cur` within the allowed length gap, merge the accumulated path score into
`cur.score` with `np.logaddexp`. -/
def prefixUpdateOne (cfg : TDTConfig S) (o : TDTOracle S) (t : ℕ)
    (cur pref : Hyp S) : Hyp S :=
  if isPrefixHyp cur.ySeq pref.ySeq
      && decide (cur.ySeq.length - pref.ySeq.length ≤ cfg.maesPrefixAlpha) then
    { cur with score := o.logAddExp cur.score (prefixStepScore cfg o t cur pref) }
  else cur

/-- `prefix_search`: for each hypothesis (all but the last), fold the update
over every later hypothesis in the list.  Scores of later hypotheses are read
before their own updates, matching the in-place Python iteration order. -/
def prefixSearch (cfg : TDTConfig S) (o : TDTOracle S) (t : ℕ) :
    List (Hyp S) → List (Hyp S)
  | [] => []
  | c :: rest => rest.foldl (prefixUpdateOne cfg o t) c :: prefixSearch cfg o t rest

/-- Routing loop of one mAES expansion round (the body over `k_expansions`):
builds `(list_b, list_nb, list_exp)`.  Note two faithful quirks of the source:
the blank-duration substitution is guarded by the Python truthiness of
`self.zero_duration_idx` (so it never fires when the zero index is literally
0), and the duplication check tests `new_hyp.y_sequence + [int(k)]` where
`y_sequence` has already had `k` appended. -/
def maesExpandStep (cfg : TDTConfig S) (o : TDTOracle S) (t : ℕ)
    (dupCheck : List (List ℕ)) (hyp : Hyp S) (row drow : List S)
    (acc2 : List (Hyp S) × List (Hyp S) × List (Hyp S)) (e : ℕ × ℕ × S) :
    List (Hyp S) × List (Hyp S) × List (Hyp S) :=
  let k := e.1
  let newScore := e.2.2
  let durationIdx :=
    if k = cfg.blank ∧ cfg.zeroIdxTruthy = true
        ∧ some e.2.1 = cfg.zeroDurationIdx then
      cfg.minNonZeroDurationIdx
    else e.2.1
  let duration := cfg.durations.getD durationIdx 0
  if k = cfg.blank then
    let score :=
      if cfg.ngramOn then
        newScore + cfg.ngramAlpha * (row.getD cfg.blank 0 + drow.getD durationIdx 0)
      else newScore
    let newHyp : Hyp S :=
      { score := score, ySeq := hyp.ySeq, decOut := hyp.decOut,
        timestep := hyp.timestep, lastFrame := hyp.lastFrame + duration,
        lmState := hyp.lmState }
    (acc2.1 ++ [newHyp], acc2.2.1, acc2.2.2)
  else
    let ySeq := hyp.ySeq ++ [k]
    let score :=
      if cfg.ngramOn then newScore + cfg.ngramAlpha * o.lm hyp.lmState k
      else newScore
    let lmState := if cfg.ngramOn then hyp.lmState ++ [k] else hyp.lmState
    let newHyp : Hyp S :=
      { score := score, ySeq := ySeq, decOut := hyp.decOut,
        timestep := hyp.timestep ++ [(t : ℤ)],
        lastFrame := hyp.lastFrame + duration, lmState := lmState }
    if duration = 0 ∧ (ySeq ++ [k]) ∉ dupCheck then
      (acc2.1, acc2.2.1, acc2.2.2 ++ [newHyp])
    else
      (acc2.1, acc2.2.1 ++ [newHyp], acc2.2.2)

def maesRouteExpansions (cfg : TDTConfig S) (o : TDTOracle S) (t : ℕ)
    (dupCheck : List (List ℕ)) (hyps : List (Hyp S))
    (rows drows : List (List S)) (kexp : List (List (ℕ × ℕ × S)))
    (listB listNB : List (Hyp S)) :
    List (Hyp S) × List (Hyp S) × List (Hyp S) :=
  hyps.enum.foldl
    (fun acc ih =>
      (kexp.getD ih.1 []).foldl
        (maesExpandStep cfg o t dupCheck ih.2 (rows.getD ih.1 []) (drows.getD ih.1 []))
        acc)
    (listB, listNB, [])

/-- The batched predictor refresh (`batch_score_hypothesis` followed by
`hyp.dec_out.append(...)`): each hypothesis gains the decoder output of its
current token sequence. -/
def refreshDecOut (l : List (Hyp S)) : List (Hyp S) :=
  l.map (fun h => { h with decOut := h.decOut ++ [h.ySeq] })

/-- First index of the maximum entry (`torch.max(..., dim=-1)`). -/
def argmaxIdx (xs : List S) : ℕ :=
  match xs.max? with
  | none => 0
  | some m => xs.findIdx (fun x => decide (x = m))

/-- Last-round blank scoring of mAES: for each hypothesis still in
`list_exp`, add the blank log-probability together with the best duration's
log-probability (substituting the minimal non-zero duration when the argmax
duration is the zero index — a plain comparison here, not a truthiness test)
and advance `last_frame` by that duration. -/
def maesLastRoundBlank (cfg : TDTConfig S) (o : TDTOracle S) (t : ℕ)
    (l : List (Hyp S)) : List (Hyp S) :=
  l.map (fun h =>
    let row := o.tok t (lastDecOut h)
    let drow := o.dur t (lastDecOut h)
    let durationIdx :=
      if some (argmaxIdx drow) = cfg.zeroDurationIdx then cfg.minNonZeroDurationIdx
      else argmaxIdx drow
    { h with
      score := h.score + (row.getD cfg.blank 0 + drow.getD durationIdx 0),
      lastFrame := h.lastFrame + cfg.durations.getD durationIdx 0 })

/-- One full mAES expansion round: joint/log-softmax on the batched last
decoder outputs, top-k over tokens and durations, `select_k_expansions_durations`,
routing, and the predictor refresh of `list_nb + list_exp`.  Returns the
updated `(list_b, list_nb, list_exp)`. -/
def maesRoundCore (cfg : TDTConfig S) (o : TDTOracle S) (t : ℕ)
    (dupCheck : List (List ℕ)) (hyps listB listNB : List (Hyp S)) :
    List (Hyp S) × List (Hyp S) × List (Hyp S) :=
  let rows := hyps.map (fun h => o.tok t (lastDecOut h))
  let drows := hyps.map (fun h => o.dur t (lastDecOut h))
  let topks := rows.map (topkDesc cfg.maxCandidates)
  let dtopks := drows.map (topkDesc cfg.tdtDurationBeamSize)
  let kexp := selectKExpansionsDurations hyps
    (topks.map (fun l => l.map Prod.fst)) (topks.map (fun l => l.map Prod.snd))
    (dtopks.map (fun l => l.map Prod.fst)) (dtopks.map (fun l => l.map Prod.snd))
    cfg.maesExpansionGamma
  let res := maesRouteExpansions cfg o t dupCheck hyps rows drows kexp listB listNB
  (res.1, refreshDecOut res.2.1, refreshDecOut res.2.2)

/-- The `for n in range(self.maes_num_steps)` loop, by the number of rounds
remaining.  On an empty `list_exp` the kept set is finalized early; on the last
round the blank score is added to the expansions first; otherwise the deduped
expansions become the next round's hypotheses. -/
def maesRounds (cfg : TDTConfig S) (o : TDTOracle S) (t : ℕ)
    (dupCheck : List (List ℕ)) :
    ℕ → List (Hyp S) → List (Hyp S) → List (Hyp S) → List (Hyp S) → List (Hyp S)
  | 0, _, _, _, kept => kept
  | r + 1, hyps, listB, listNB, kept =>
    let res := maesRoundCore cfg o t dupCheck hyps listB listNB
    let listB := res.1
    let listNB := res.2.1
    let listExp := res.2.2
    if listExp = [] then
      (sortDescScore (removeDuplicateHypotheses (kept ++ listB ++ listNB))).take cfg.beam
    else if r = 0 then
      let listExpF := maesLastRoundBlank cfg o t listExp
      (sortDescScore
        (removeDuplicateHypotheses (kept ++ listB ++ listExpF ++ listNB))).take cfg.beam
    else
      maesRounds cfg o t dupCheck r (removeDuplicateHypotheses listExp) listB listNB kept

/-- One frame of `modified_adaptive_expansion_search`: split current/future
hypotheses, skip empty frames, run `prefix_search` when a zero duration exists
(on the length-descending sorted current hypotheses), snapshot the duplication
check and run the expansion rounds. -/
def maesFrame (cfg : TDTConfig S) (o : TDTOracle S) (kept : List (Hyp S))
    (t : ℕ) : List (Hyp S) :=
  let hyps := kept.filter (fun h => decide (h.lastFrame = t))
  let keptF := kept.filter (fun h => decide (t < h.lastFrame))
  if hyps = [] then keptF
  else
    let hyps :=
      if cfg.zeroDurationIdx ≠ none then prefixSearch cfg o t (sortDescLen hyps)
      else hyps
    let dupCheck := hyps.map Hyp.ySeq
    maesRounds cfg o t dupCheck cfg.maesNumSteps hyps [] [] keptF

/-- `sort_nbest`: sort by length-normalized or raw score, descending (the
normalization divides, so this lives over a field). -/
def normGE {F : Type} [LinearOrderedField F] (a b : Hyp F) : Prop :=
  b.score / (b.ySeq.length : F) ≤ a.score / (a.ySeq.length : F)

instance {F : Type} [LinearOrderedField F] : DecidableRel (normGE (F := F)) :=
  fun a b =>
    inferInstanceAs (Decidable (b.score / (b.ySeq.length : F) ≤ a.score / (a.ySeq.length : F)))

def sortNBest {F : Type} [LinearOrderedField F] (cfg : TDTConfig F) (hyps : List (Hyp F)) :
    List (Hyp F) :=
  if cfg.scoreNorm then List.insertionSort normGE hyps else sortDescScore hyps

/-- The sentinel hypothesis mAES starts from: token sequence `[blank]`,
timestep `[-1]`, score 0, the decoder output of `[blank]` cached, and the
sentence-begin LM state. -/
def maesStartHyp (cfg : TDTConfig S) : Hyp S :=
  { score := 0, ySeq := [cfg.blank], timestep := [-1], lastFrame := 0,
    decOut := [[cfg.blank]], lmState := [] }

/-- The kept set after the mAES frame loop has consumed frames `0 .. T-1`. -/
def maesKept (cfg : TDTConfig S) (o : TDTOracle S) (T : ℕ) : List (Hyp S) :=
  (List.range T).foldl (maesFrame cfg o) [maesStartHyp cfg]

/-- `modified_adaptive_expansion_search` over `T` encoder frames. -/
def maesSearch {F : Type} [LinearOrderedField F] (cfg : TDTConfig F) (o : TDTOracle F)
    (T : ℕ) : List (Hyp F) :=
  sortNBest cfg (maesKept cfg o T)

/-- `max(hyps, key=lambda x: x.score)` for a non-empty list, combined with
`hyps.remove(max_hyp)`: the first hypothesis achieving the maximal score, and
the list with that occurrence removed. -/
def popMax : List (Hyp S) → Option (Hyp S × List (Hyp S))
  | [] => none
  | h :: t =>
    match popMax t with
    | none => some (h, [])
    | some (m, rest) => if h.score < m.score then some (m, h :: rest) else some (h, t)

/-- `float(max(hyps, key=lambda x: x.score).score)` (0 for the empty list,
which the source never queries). -/
def maxScore (l : List (Hyp S)) : S := ((l.map Hyp.score).max?).getD 0

/-- Expansion of the best hypothesis in `default_beam_search`: joint
log-probabilities at frame `t`, top-`beam_k` non-blank tokens (the blank is the
final vocabulary position and is sliced away by `logp[:-1]`), top
`durations_beam_k` durations, top-`beam_k` (duration, token) pairs of the
Cartesian product of summed log-probabilities; zero-duration children go back
into the current frame's queue and the rest into the future set; then blank
children, one per top-k duration, skipping the zero duration (or substituting
the minimal non-zero duration when the top-k holds only the zero index);
finally duplicate removal on the future set. -/
def defaultTokenStep (cfg : TDTConfig S) (t beamK : ℕ) (h : Hyp S)
    (tokTopk durTopk : List (ℕ × S)) (acc : List (Hyp S) × List (Hyp S))
    (s : ℕ × S) : List (Hyp S) × List (Hyp S) :=
  let tokenIdx := s.1 % beamK
  let durationIdx := s.1 / beamK
  let duration := cfg.durations.getD (durTopk.getD durationIdx (0, 0)).1 0
  let newHyp : Hyp S :=
    { score := h.score + s.2,
      ySeq := h.ySeq ++ [(tokTopk.getD tokenIdx (0, 0)).1],
      timestep := h.timestep ++ [(t : ℤ) + (duration : ℤ)],
      lastFrame := h.lastFrame + duration,
      decOut := h.decOut, lmState := h.lmState }
  if duration = 0 then (acc.1 ++ [newHyp], acc.2) else (acc.1, acc.2 ++ [newHyp])

def defaultBlankStep (cfg : TDTConfig S) (h : Hyp S) (logp durLogp : List S)
    (durTopk : List (ℕ × S)) (acc : List (Hyp S)) (d : ℕ × S) : List (Hyp S) :=
  if some d.1 = cfg.zeroDurationIdx ∧ durTopk.length ≠ 1 then acc
  else
    let durationIdx :=
      if some d.1 = cfg.zeroDurationIdx then cfg.minNonZeroDurationIdx else d.1
    let duration := cfg.durations.getD durationIdx 0
    let newHyp : Hyp S :=
      { score := h.score + (logp.getD cfg.blank 0 + durLogp.getD durationIdx 0),
        ySeq := h.ySeq, timestep := h.timestep,
        lastFrame := h.lastFrame + duration,
        decOut := h.decOut, lmState := h.lmState }
    acc ++ [newHyp]

def defaultExpandHyp (cfg : TDTConfig S) (o : TDTOracle S) (t beamK dBeamK : ℕ)
    (h : Hyp S) (hyps kept : List (Hyp S)) : List (Hyp S) × List (Hyp S) :=
  let logp := o.tok t h.ySeq
  let durLogp := o.dur t h.ySeq
  let tokTopk := topkDesc beamK logp.dropLast
  let durTopk := topkDesc dBeamK durLogp
  let pairSums := durTopk.flatMap (fun d => tokTopk.map (fun tk => d.2 + tk.2))
  let sums := topkDesc beamK pairSums
  let step1 := sums.foldl (defaultTokenStep cfg t beamK h tokTopk durTopk) (hyps, kept)
  let kept2 := durTopk.foldl (defaultBlankStep cfg h logp durLogp durTopk) step1.2
  (step1.1, removeDuplicateHypotheses kept2)

/-- End-of-iteration bookkeeping of the default search's inner loop: when the
current frame still has hypotheses, collect the future hypotheses with score
strictly above the best remaining one (sorted ascending) and stop the loop when
at least `beam` of them exist — keeping that entire set; when the current frame
is exhausted, cap the future set at the `beam` best.  Returns the new future
set and whether the loop breaks. -/
def defaultTerminationCheck (beam : ℕ) (hyps kept : List (Hyp S)) :
    List (Hyp S) × Bool :=
  match hyps with
  | [] => ((sortDescScore kept).take beam, false)
  | _ :: _ =>
    let keptMostProb := sortAscScore (kept.filter (fun h => decide (maxScore hyps < h.score)))
    if beam ≤ keptMostProb.length then (keptMostProb, true) else (kept, false)

/-- The `while len(hyps) > 0` loop of `default_beam_search`, with explicit
fuel (the source loop has no a-priori bound; every terminating execution
corresponds to a sufficiently large fuel). -/
def defaultInner (cfg : TDTConfig S) (o : TDTOracle S) (t beamK dBeamK : ℕ) :
    ℕ → List (Hyp S) → List (Hyp S) → List (Hyp S)
  | 0, _, kept => kept
  | fuel + 1, hyps, kept =>
    match popMax hyps with
    | none => kept
    | some (maxHyp, hyps') =>
      let ek := defaultExpandHyp cfg o t beamK dBeamK maxHyp hyps' kept
      let tc := defaultTerminationCheck cfg.beam ek.1 ek.2
      if tc.2 then tc.1
      else
        match ek.1 with
        | [] => tc.1
        | _ :: _ => defaultInner cfg o t beamK dBeamK fuel ek.1 tc.1

/-- The sentinel hypothesis `default_beam_search` starts from. -/
def defaultStartHyp (cfg : TDTConfig S) : Hyp S :=
  { score := 0, ySeq := [cfg.blank], timestep := [-1], lastFrame := 0,
    decOut := [], lmState := [] }

/-- One frame of `default_beam_search`: split current/future hypotheses and run
the inner loop with `beam_k = min(beam, vocab_size - 1)` and
`durations_beam_k = min(beam, len(durations))`. -/
def defaultFrame (cfg : TDTConfig S) (o : TDTOracle S) (fuel t : ℕ)
    (kept : List (Hyp S)) : List (Hyp S) :=
  let hyps := kept.filter (fun h => decide (h.lastFrame = t))
  let keptF := kept.filter (fun h => decide (t < h.lastFrame))
  defaultInner cfg o t (min cfg.beam (cfg.vocabSize - 1))
    (min cfg.beam cfg.durations.length) fuel hyps keptF

/-- The kept set after `default_beam_search` has consumed frames `0 .. T-1`. -/
def defaultKept (cfg : TDTConfig S) (o : TDTOracle S) (T fuel : ℕ) : List (Hyp S) :=
  (List.range T).foldl (fun kept t => defaultFrame cfg o fuel t kept) [defaultStartHyp cfg]

/-- `default_beam_search` over `T` encoder frames. -/
def defaultBeamSearch {F : Type} [LinearOrderedField F] (cfg : TDTConfig F)
    (o : TDTOracle F) (T fuel : ℕ) : List (Hyp F) :=
  sortNBest cfg (defaultKept cfg o T fuel)

/-- Constructor arguments of `BeamTDTInfer.__init__` that its validation reads.
`ngramLmModel` is whether a (truthy) LM path was supplied and `kenlmAvailable`
whether the `kenlm` import succeeded. -/
structure InitParams where
  beamSize : ℤ
  searchType : String
  maesNumSteps : ℤ
  maesPrefixAlpha : ℤ
  maesExpansionBeta : ℤ
  vocabSize : ℤ
  durations : List ℤ
  preserveAlignments : Bool
  ngramLmModel : Bool
  kenlmAvailable : Bool

/-- The `search_type` dispatch chain of the constructor.  With `beam_size of 1`
the greedy branch is taken first and no search type is examined. -/
def searchDispatch (p : InitParams) : Except String Unit :=
  if p.beamSize = 1 then .ok ()
  else if p.searchType = "default" then .ok ()
  else if p.searchType = "tsd" then .error "tsd has not been implemented"
  else if p.searchType = "alsd" then .error "alsd has not been implemented"
  else if p.searchType = "nsc" then .error "nsc has not been implemented"
  else if p.searchType = "maes" then .ok ()
  else .error "search type not supported"

/-- The `if self.search_type == 'maes'` validation block. -/
def maesChecks (p : InitParams) : Except String Unit :=
  if p.searchType = "maes" then
    if p.maesPrefixAlpha < 0 then .error "maes_prefix_alpha must be positive"
    else if p.vocabSize < p.beamSize + p.maesExpansionBeta then
      .error "beam_size + expansion_beta should not exceed vocabulary size"
    else if p.maesNumSteps < 2 then .error "maes_num_steps must be greater than 1"
    else .ok ()
  else .ok ()

/-- The language-model setup block. -/
def lmChecks (p : InitParams) : Except String Unit :=
  if p.ngramLmModel then
    if p.searchType ≠ "maes" then .error "LM requires the maes strategy"
    else if p.kenlmAvailable then .ok ()
    else .error "KenLM package is not installed"
  else .ok ()

/-- `BeamTDTInfer.__init__`, reduced to its fallible validation steps in source
order: alignment preservation, `beam_size < 1`, the search dispatch, the maes
block, the duration-index precomputation (`np.argmin` raises on an empty
duration list), and the LM block. -/
def beamTDTInferInit (p : InitParams) : Except String Unit :=
  if p.preserveAlignments then .error "alignment preservation not implemented"
  else if p.beamSize < 1 then .error "beam size cannot be less than 1"
  else
    match searchDispatch p with
    | .error e => .error e
    | .ok _ =>
      match maesChecks p with
      | .error e => .error e
      | .ok _ =>
        if p.durations = [] then .error "argmin of an empty sequence"
        else lmChecks p

/-- The failure condition asserted by the claim about construction: error if
and only if `beam_size < 1`, `maes_num_steps < 2`, `maes_prefix_alpha < 0`,
`V < beam + beta`, an LM with a non-maes search, an LM without the KenLM
library, alignment preservation, or a `tsd`/`alsd`/`nsc`/unknown search type. -/
def claimedInitFailure (p : InitParams) : Bool :=
  decide (p.beamSize < 1) || decide (p.maesNumSteps < 2) ||
  decide (p.maesPrefixAlpha < 0) ||
  decide (p.vocabSize < p.beamSize + p.maesExpansionBeta) ||
  (p.ngramLmModel && decide (p.searchType ≠ "maes")) ||
  (p.ngramLmModel && !p.kenlmAvailable) ||
  p.preserveAlignments ||
  decide (p.searchType = "tsd") || decide (p.searchType = "alsd") ||
  decide (p.searchType = "nsc") ||
  (decide (p.searchType ≠ "default") && decide (p.searchType ≠ "maes") &&
    decide (p.searchType ≠ "tsd") && decide (p.searchType ≠ "alsd") &&
    decide (p.searchType ≠ "nsc"))

/-- The failure condition the constructor actually implements (for non-empty
duration lists): the maes checks apply only when `search_type == 'maes'`, and
the search-type dispatch is bypassed entirely when `beam_size == 1`. -/
def amendedInitFailure (p : InitParams) : Bool :=
  p.preserveAlignments || decide (p.beamSize < 1) ||
  (decide (1 < p.beamSize) && decide (p.searchType ≠ "default") &&
    decide (p.searchType ≠ "maes")) ||
  (decide (p.searchType = "maes") &&
    (decide (p.maesPrefixAlpha < 0) ||
      decide (p.vocabSize < p.beamSize + p.maesExpansionBeta) ||
      decide (p.maesNumSteps < 2))) ||
  (p.ngramLmModel && (decide (p.searchType ≠ "maes") || !p.kenlmAvailable))

/-- Training-mode flags of the decoder and joint modules. -/
structure ModuleFlags where
  decoderTraining : Bool
  jointTraining : Bool

instance : DecidableEq ModuleFlags := fun a b => by
  cases a; cases b
  exact decidable_of_iff _ (Iff.of_eq (ModuleFlags.mk.injEq _ _ _ _)).symm

/-- The effect of `BeamTDTInfer.__call__` on the two training flags: the flags
are saved, both modules are switched to eval mode, the batched search body runs
(its outcome is the oracle parameter `searchResult`), and only on normal
completion does `train(saved)` restore the flags — an exception propagates
before the restore lines run. -/
def tdtInferCall {α : Type} (s : ModuleFlags) (searchResult : Except String α) :
    Except String α × ModuleFlags :=
  let decoderTrainingState := s.decoderTraining
  let jointTrainingState := s.jointTraining
  let sEval : ModuleFlags := ⟨false, false⟩
  match searchResult with
  | .error e => (.error e, sEval)
  | .ok v => (.ok v, ⟨decoderTrainingState, jointTrainingState⟩)

/-- A decoder configuration with the typical TDT duration layout `[0, 2]`
(zero duration at index 0), beam 2, vocabulary `{0, 1}` with blank id 2. -/
def C1cfg : TDTConfig ℤ :=
  { beamSize := 2, vocabSize := 2, blank := 2, durations := [0, 2],
    scoreNorm := false, maesNumSteps := 2, maesPrefixAlpha := 1,
    maesExpansionGamma := 1, maxCandidates := 2, tdtDurationBeamSize := 2,
    ngramOn := false, ngramAlpha := 0 }

/-- Mocked joint tables making the blank token with the zero duration the only
expansion within the pruning margin. -/
def C1oracle : TDTOracle ℤ :=
  ⟨fun _ _ => [-20, -21, 0], fun _ _ => [0, -30], fun _ _ => 0, fun a b => max a b⟩

/-- Same configuration as `C1cfg` (duration table `[0, 2]`, beam 2). -/
def C2cfg : TDTConfig ℤ :=
  { beamSize := 2, vocabSize := 2, blank := 2, durations := [0, 2],
    scoreNorm := false, maesNumSteps := 2, maesPrefixAlpha := 1,
    maesExpansionGamma := 1, maxCandidates := 2, tdtDurationBeamSize := 2,
    ngramOn := false, ngramAlpha := 0 }

/-- Mocked joint tables making token 1 with the zero duration the only
expansion within the pruning margin. -/
def C2oracle : TDTOracle ℤ :=
  ⟨fun _ _ => [-20, 0, -21], fun _ _ => [0, -30], fun _ _ => 0, fun a b => max a b⟩

/-- The one remaining current-frame hypothesis in the C3/C4 scenario. -/
def C3hypNow : Hyp ℚ :=
  { score := -12, ySeq := [2, 0, 0], timestep := [-1, 0, 0], lastFrame := 0,
    decOut := [], lmState := [] }

/-- A future-frame hypothesis with score above `C3hypNow`. -/
def C3keptA : Hyp ℚ :=
  { score := -9, ySeq := [2], timestep := [-1], lastFrame := 1,
    decOut := [], lmState := [] }

/-- A second future-frame hypothesis with score above `C3hypNow`. -/
def C3keptB : Hyp ℚ :=
  { score := -5, ySeq := [2, 0], timestep := [-1, 0], lastFrame := 1,
    decOut := [], lmState := [] }

/-- Default-search configuration with beam 1, vocabulary `{0, 1}` (blank 2)
and durations `[0, 1]`. -/
def C4cfg : TDTConfig ℤ :=
  { beamSize := 1, vocabSize := 2, blank := 2, durations := [0, 1],
    scoreNorm := false, maesNumSteps := 2, maesPrefixAlpha := 1,
    maesExpansionGamma := 2, maxCandidates := 1, tdtDurationBeamSize := 2,
    ngramOn := false, ngramAlpha := 0 }

/-- Mocked joint tables for the default search: at the start hypothesis the
zero-duration token child stays cheap and the blank child expensive; at its
child both fresh future hypotheses outscore the remaining queue. -/
def C4oracle : TDTOracle ℤ :=
  ⟨fun _ key => if key = [2] then [-1, -20, -5] else [-9, -20, -1],
   fun _ key => if key = [2] then [-1, -4] else [-1, -2],
   fun _ _ => 0, fun a b => max a b⟩

/-- A small well-formed configuration for witnesses: blank id 2 equals the
vocabulary size, durations `[1]`. -/
def C8cfg : TDTConfig ℚ :=
  { beamSize := 2, vocabSize := 2, blank := 2, durations := [1],
    scoreNorm := false, maesNumSteps := 2, maesPrefixAlpha := 1,
    maesExpansionGamma := 1, maxCandidates := 2, tdtDurationBeamSize := 1,
    ngramOn := false, ngramAlpha := 0 }

/-- Constant mocked tables of the shapes the joint contract promises. -/
def C8oracle : TDTOracle ℚ :=
  ⟨fun _ _ => [-1, -2, -3], fun _ _ => [-1], fun _ _ => 0, fun a b => max a b⟩

/-- Constructor arguments accepted by the code although the claimed failure
condition holds (`maes_num_steps = 0` with the default search). -/
def C9params : InitParams :=
  { beamSize := 2, searchType := "default", maesNumSteps := 0,
    maesPrefixAlpha := 1, maesExpansionBeta := 2, vocabSize := 100,
    durations := [0, 1], preserveAlignments := false, ngramLmModel := false,
    kenlmAvailable := false }

end TDT

/-- numpy's `logaddexp`: the natural logarithm of the sum of the exponentials,
`log(exp a + exp b)`. -/
noncomputable def realLogAddExp (a b : ℝ) : ℝ := Real.log (Real.exp a + Real.exp b)

namespace TDT

variable {S : Type} [LinearOrderedCommRing S]

/-- C10 counterexample: a call whose search body raises (for instance the
`greedy_search` stub, selected whenever `beam_size == 1`, which raises
`NotImplementedError` unconditionally) leaves both modules in eval mode: the
flags after the call differ from the flags before it, so the claim as stated
is false. -/
theorem claim_C10_counterexample :
    (tdtInferCall (⟨true, true⟩ : ModuleFlags)
        (Except.error "greedy search has not been implemented" : Except String Unit)).2 ≠
      (⟨true, true⟩ : ModuleFlags) := by
  decide

/-- C10 (amended): for every call whose batched search body completes
normally, `__call__` restores the decoder and joint training flags to their
values from before the call, although both modules were switched to eval mode
for the duration of decoding. -/
theorem claim_C10_flags_restored {α : Type} (s : ModuleFlags) (v : α) :
    tdtInferCall s (Except.ok v) = (Except.ok v, s) := rfl

/-- C9 counterexample: with `search_type='default'` and `maes_num_steps = 0`
the constructor succeeds although the claimed failure condition
(`maes_num_steps < 2` listed unconditionally) holds, so the claimed
"if and only if" is false: the maes hyperparameter checks only run when
`search_type == 'maes'`. -/
theorem claim_C9_counterexample :
    beamTDTInferInit C9params = Except.ok () ∧ claimedInitFailure C9params = true := by
  constructor
  · rfl
  · decide

end TDT

namespace TDT

variable {S : Type} [LinearOrderedCommRing S]

/-- C3 counterexample: with `beam = 1`, one remaining current-frame hypothesis
of score -12 and two future hypotheses of scores -9 and -5, the early
termination fires and keeps BOTH qualifying hypotheses: more than `B` survive,
so "hyps_future becomes exactly the top-B of that qualifying set (no more than
B survive)" is false — the code never truncates the qualifying set. -/
theorem claim_C3_counterexample :
    (defaultTerminationCheck 1 [C3hypNow] [C3keptA, C3keptB]).2 = true ∧
      1 < ((defaultTerminationCheck 1 [C3hypNow] [C3keptA, C3keptB]).1).length := by
  decide

/-- C3 (amended): in default beam search, when `hyps_now` is non-empty and at
least `B` hypotheses of `hyps_future` have score strictly greater than the
maximum score `s*` of `hyps_now`, the inner loop breaks and `hyps_future`
becomes the ENTIRE qualifying set sorted ascending by score (at least `B`, and
possibly more, hypotheses survive); with the strict comparison, hypotheses
scoring exactly `s*` never qualify, so ties favor continued expansion. -/
theorem claim_C3_termination (beam : ℕ) (hyps kept : List (Hyp S))
    (hne : hyps ≠ [])
    (hq : beam ≤ (kept.filter (fun h => decide (maxScore hyps < h.score))).length) :
    defaultTerminationCheck beam hyps kept =
      (sortAscScore (kept.filter (fun h => decide (maxScore hyps < h.score))), true) ∧
    beam ≤ ((defaultTerminationCheck beam hyps kept).1).length ∧
    ∀ h ∈ kept, h.score = maxScore hyps →
      h ∉ kept.filter (fun g => decide (maxScore hyps < g.score)) := by
  match hyps, hne with
  | a :: hyps', _ =>
    have hlen : (sortAscScore (kept.filter
        (fun h => decide (maxScore (a :: hyps') < h.score)))).length =
        (kept.filter (fun h => decide (maxScore (a :: hyps') < h.score))).length :=
      List.length_insertionSort _ _
    have hcond : beam ≤ (sortAscScore (kept.filter
        (fun h => decide (maxScore (a :: hyps') < h.score)))).length := by
      rw [hlen]; exact hq
    have heq : defaultTerminationCheck beam (a :: hyps') kept =
        (sortAscScore (kept.filter (fun h => decide (maxScore (a :: hyps') < h.score))), true) := by
      unfold defaultTerminationCheck
      simp only [if_pos hcond]
    refine ⟨heq, ?_, ?_⟩
    · rw [heq]; exact hcond
    · intro h _ hs hmem
      have := List.of_mem_filter hmem
      rw [hs] at this
      exact absurd (of_decide_eq_true this) (lt_irrefl _)

/-- C3 witness. -/
theorem claim_C3_termination_witness :
    defaultTerminationCheck 1 [C3hypNow] [C3keptA] =
      (sortAscScore ([C3keptA].filter (fun h => decide (maxScore [C3hypNow] < h.score))), true) ∧
    1 ≤ ((defaultTerminationCheck 1 [C3hypNow] [C3keptA]).1).length ∧
    ∀ h ∈ [C3keptA], h.score = maxScore [C3hypNow] →
      h ∉ [C3keptA].filter (fun g => decide (maxScore [C3hypNow] < g.score)) :=
  claim_C3_termination 1 [C3hypNow] [C3keptA] (by decide) (by decide)

end TDT

namespace TDT

variable {S : Type} [LinearOrderedCommRing S]

/-- Facts carried by `List.max?` over a linear order. -/
theorem max?_facts {xs : List S} {m : S} (h : xs.max? = some m) :
    m ∈ xs ∧ ∀ y ∈ xs, y ≤ m := by
  refine ⟨List.max?_mem max_choice h, ?_⟩
  exact (List.max?_le_iff (fun _ _ _ => max_le_iff) h).mp le_rfl

/-- C5: for every hypothesis score and non-empty top-k token and duration
lists, the expansion selector builds the full Cartesian product of candidates
scored `score + token_logp + duration_logp`, and returns exactly those
candidates whose total is at least `M - gamma` (with `M` the maximum candidate
score), sorted ascending by score; for `gamma > 0` the argmax candidate is
always retained. -/
theorem claim_C5_expansion_selector (score gamma : S) (toks durs : List (ℕ × S))
    (ht : toks ≠ []) (hd : durs ≠ []) (hγ : 0 < gamma) :
    ∃ M, ((kExpansionCandidates score toks durs).map (fun x => x.2.2)).max? = some M ∧
      (kExpansionsFor score toks durs gamma).Perm
        ((kExpansionCandidates score toks durs).filter (fun x => decide (M - gamma ≤ x.2.2))) ∧
      List.Sorted expLE (kExpansionsFor score toks durs gamma) ∧
      (∃ x ∈ kExpansionsFor score toks durs gamma, x.2.2 = M) ∧
      ∀ x ∈ kExpansionsFor score toks durs gamma, M - gamma ≤ x.2.2 := by
  have hne : kExpansionCandidates score toks durs ≠ [] := by
    match toks, ht, durs, hd with
    | t :: ts, _, d :: ds, _ => simp [kExpansionCandidates]
  have hmapne : (kExpansionCandidates score toks durs).map (fun x => x.2.2) ≠ [] := by
    simpa using hne
  cases hmax : ((kExpansionCandidates score toks durs).map (fun x => x.2.2)).max? with
  | none => exact absurd (List.max?_eq_none_iff.mp hmax) hmapne
  | some M =>
    have hre : kExpansionsFor score toks durs gamma =
        List.insertionSort expLE
          ((kExpansionCandidates score toks durs).filter
            (fun x => decide (M - gamma ≤ x.2.2))) := by
      unfold kExpansionsFor
      rw [hmax]
    obtain ⟨hMmem, hMub⟩ := max?_facts hmax
    obtain ⟨x0, hx0mem, hx0⟩ := List.mem_map.mp hMmem
    have hperm : (kExpansionsFor score toks durs gamma).Perm
        ((kExpansionCandidates score toks durs).filter
          (fun x => decide (M - gamma ≤ x.2.2))) := by
      rw [hre]; exact List.perm_insertionSort _ _
    refine ⟨M, rfl, hperm, ?_, ?_, ?_⟩
    · rw [hre]; exact List.sorted_insertionSort _ _
    · refine ⟨x0, ?_, hx0⟩
      refine hperm.mem_iff.mpr (List.mem_filter.mpr ⟨hx0mem, ?_⟩)
      rw [hx0]
      exact decide_eq_true (sub_le_self M (le_of_lt hγ))
    · intro x hx
      have := List.of_mem_filter (hperm.mem_iff.mp hx)
      exact of_decide_eq_true this

/-- C5 witness. -/
theorem claim_C5_expansion_selector_witness :
    ∃ M, ((kExpansionCandidates (0 : ℚ) [(0, -1), (1, -2)] [(5, 0), (6, -1)]).map
        (fun x => x.2.2)).max? = some M ∧
      (kExpansionsFor (0 : ℚ) [(0, -1), (1, -2)] [(5, 0), (6, -1)] 2).Perm
        ((kExpansionCandidates (0 : ℚ) [(0, -1), (1, -2)] [(5, 0), (6, -1)]).filter
          (fun x => decide (M - 2 ≤ x.2.2))) ∧
      List.Sorted expLE (kExpansionsFor (0 : ℚ) [(0, -1), (1, -2)] [(5, 0), (6, -1)] 2) ∧
      (∃ x ∈ kExpansionsFor (0 : ℚ) [(0, -1), (1, -2)] [(5, 0), (6, -1)] 2, x.2.2 = M) ∧
      ∀ x ∈ kExpansionsFor (0 : ℚ) [(0, -1), (1, -2)] [(5, 0), (6, -1)] 2, M - 2 ≤ x.2.2 :=
  claim_C5_expansion_selector 0 2 [(0, -1), (1, -2)] [(5, 0), (6, -1)]
    (by decide) (by decide) (by decide)

end TDT

/-- numpy's `logaddexp` never falls below either argument. -/
theorem le_realLogAddExp (a b : ℝ) : a ≤ realLogAddExp a b := by
  unfold realLogAddExp
  calc a = Real.log (Real.exp a) := (Real.log_exp a).symm
  _ ≤ Real.log (Real.exp a + Real.exp b) :=
      Real.log_le_log (Real.exp_pos a) (le_add_of_nonneg_right (Real.exp_pos b).le)

namespace TDT

variable {S : Type} [LinearOrderedCommRing S]

/-- A `prefix_search` update leaves the token sequence unchanged. -/
theorem prefixUpdateOne_ySeq (cfg : TDTConfig S) (o : TDTOracle S) (t : ℕ)
    (c p : Hyp S) : (prefixUpdateOne cfg o t c p).ySeq = c.ySeq := by
  unfold prefixUpdateOne
  split <;> rfl

/-- A `prefix_search` update leaves `last_frame` unchanged. -/
theorem prefixUpdateOne_lastFrame (cfg : TDTConfig S) (o : TDTOracle S) (t : ℕ)
    (c p : Hyp S) : (prefixUpdateOne cfg o t c p).lastFrame = c.lastFrame := by
  unfold prefixUpdateOne
  split <;> rfl

/-- When the log-add-exp oracle dominates its first argument, a
`prefix_search` update never decreases the score. -/
theorem prefixUpdateOne_score_le (cfg : TDTConfig S) (o : TDTOracle S) (t : ℕ)
    (hmono : ∀ a b : S, a ≤ o.logAddExp a b) (c p : Hyp S) :
    c.score ≤ (prefixUpdateOne cfg o t c p).score := by
  unfold prefixUpdateOne
  split
  · exact hmono _ _
  · exact le_rfl

/-- The inner fold of `prefix_search` keeps the token sequence. -/
theorem foldl_prefixUpdate_ySeq (cfg : TDTConfig S) (o : TDTOracle S) (t : ℕ) :
    ∀ (l : List (Hyp S)) (c : Hyp S),
      (l.foldl (prefixUpdateOne cfg o t) c).ySeq = c.ySeq := by
  intro l
  induction l with
  | nil => intro c; rfl
  | cons p l ih =>
    intro c
    rw [List.foldl_cons, ih, prefixUpdateOne_ySeq]

/-- The inner fold of `prefix_search` never decreases the score. -/
theorem foldl_prefixUpdate_score (cfg : TDTConfig S) (o : TDTOracle S) (t : ℕ)
    (hmono : ∀ a b : S, a ≤ o.logAddExp a b) :
    ∀ (l : List (Hyp S)) (c : Hyp S),
      c.score ≤ (l.foldl (prefixUpdateOne cfg o t) c).score := by
  intro l
  induction l with
  | nil => intro c; exact le_rfl
  | cons p l ih =>
    intro c
    rw [List.foldl_cons]
    exact le_trans (prefixUpdateOne_score_le cfg o t hmono c p) (ih _)

/-- `prefix_search` relates its input and output pointwise: same token
sequences, never-decreasing scores. -/
theorem prefixSearch_forall2 (cfg : TDTConfig S) (o : TDTOracle S) (t : ℕ)
    (hmono : ∀ a b : S, a ≤ o.logAddExp a b) :
    ∀ l : List (Hyp S),
      List.Forall₂ (fun h g => h.score ≤ g.score ∧ h.ySeq = g.ySeq) l
        (prefixSearch cfg o t l) := by
  intro l
  induction l with
  | nil => exact List.Forall₂.nil
  | cons c rest ih =>
    exact List.Forall₂.cons
      ⟨foldl_prefixUpdate_score cfg o t hmono rest c,
        (foldl_prefixUpdate_ySeq cfg o t rest c).symm⟩ ih

/-- Every output hypothesis of `prefix_search` has the token sequence of some
input hypothesis. -/
theorem prefixSearch_ySeq_mem (cfg : TDTConfig S) (o : TDTOracle S) (t : ℕ) :
    ∀ (l : List (Hyp S)) (g : Hyp S), g ∈ prefixSearch cfg o t l →
      ∃ h ∈ l, g.ySeq = h.ySeq := by
  intro l
  induction l with
  | nil => intro g hg; cases hg
  | cons c rest ih =>
    intro g hg
    rcases List.mem_cons.mp hg with h | h
    · exact ⟨c, List.mem_cons_self c rest, by rw [h, foldl_prefixUpdate_ySeq]⟩
    · obtain ⟨h', hh', he⟩ := ih g h
      exact ⟨h', List.mem_cons_of_mem c hh', he⟩

/-- C7: the prefix-score corrector never decreases a hypothesis's score.  Each
update replaces the longer hypothesis's score by
`logaddexp(longer.score, shorter.score + accumulated delta)` and the real
log-add-exp dominates its first argument; the token sequences are untouched. -/
theorem claim_C7_prefix_monotone (cfg : TDTConfig ℝ)
    (tok dur : ℕ → List ℕ → List ℝ) (lm : List ℕ → ℕ → ℝ) (t : ℕ)
    (hyps : List (Hyp ℝ)) :
    (∀ a b : ℝ, a ≤ realLogAddExp a b) ∧
    List.Forall₂ (fun h g => h.score ≤ g.score ∧ h.ySeq = g.ySeq) hyps
      (prefixSearch cfg ⟨tok, dur, lm, realLogAddExp⟩ t hyps) :=
  ⟨le_realLogAddExp,
    prefixSearch_forall2 cfg ⟨tok, dur, lm, realLogAddExp⟩ t
      (fun a b => le_realLogAddExp a b) hyps⟩

end TDT

namespace TDT

/-- Success condition of the search-type dispatch. -/
theorem searchDispatch_isOk (p : InitParams) :
    (searchDispatch p).isOk = true ↔
      (p.beamSize = 1 ∨ p.searchType = "default" ∨ p.searchType = "maes") := by
  unfold searchDispatch
  split_ifs <;> simp_all [Except.isOk, Except.toBool]

/-- Success condition of the maes validation block. -/
theorem maesChecks_isOk (p : InitParams) :
    (maesChecks p).isOk = true ↔
      (p.searchType = "maes" →
        ¬p.maesPrefixAlpha < 0 ∧
        ¬p.vocabSize < p.beamSize + p.maesExpansionBeta ∧
        ¬p.maesNumSteps < 2) := by
  unfold maesChecks
  split_ifs <;> simp_all [Except.isOk, Except.toBool]

/-- Success condition of the language-model block. -/
theorem lmChecks_isOk (p : InitParams) :
    (lmChecks p).isOk = true ↔
      (p.ngramLmModel = true → p.searchType = "maes" ∧ p.kenlmAvailable = true) := by
  unfold lmChecks
  split_ifs <;> simp_all [Except.isOk, Except.toBool]

/-- Success condition of the whole constructor, for non-empty durations. -/
theorem beamTDTInferInit_isOk (p : InitParams) (hd : p.durations ≠ []) :
    (beamTDTInferInit p).isOk = true ↔
      (p.preserveAlignments = false ∧ ¬p.beamSize < 1 ∧
        (searchDispatch p).isOk = true ∧ (maesChecks p).isOk = true ∧
        (lmChecks p).isOk = true) := by
  unfold beamTDTInferInit
  split_ifs <;>
    cases hsd : searchDispatch p <;>
      cases hmc : maesChecks p <;>
        simp_all [Except.isOk, Except.toBool]

/-- C9 (amended): for a non-empty duration table, construction raises an error
if and only if: alignment preservation is requested; or `beam_size < 1`; or
`beam_size > 1` with a search type other than `default`/`maes` (the dispatch is
bypassed when `beam_size == 1`, so `tsd`/`alsd`/`nsc`/unknown types are then
accepted); or `search_type == 'maes'` with `maes_prefix_alpha < 0`, or
`V < beam + beta`, or `maes_num_steps < 2` (these checks run only for `maes`);
or an LM path is set with a non-`maes` search type or without the KenLM
library. -/
theorem claim_C9_construction (p : InitParams) (hd : p.durations ≠ []) :
    (beamTDTInferInit p).isOk = false ↔ amendedInitFailure p = true := by
  have hb : (beamTDTInferInit p).isOk = false ↔ ¬(beamTDTInferInit p).isOk = true := by
    cases (beamTDTInferInit p).isOk <;> simp
  rw [hb, beamTDTInferInit_isOk p hd, searchDispatch_isOk, maesChecks_isOk, lmChecks_isOk]
  unfold amendedInitFailure
  by_cases pa : p.preserveAlignments <;>
    by_cases sd : p.searchType = "default" <;>
      by_cases sm : p.searchType = "maes" <;>
        by_cases lm : p.ngramLmModel <;>
          by_cases ka : p.kenlmAvailable <;>
            simp_all [Bool.or_eq_true, Bool.and_eq_true, decide_eq_true_eq,
              Bool.not_eq_true, decide_eq_false_iff_not] <;>
            omega

/-- C9 witness. -/
theorem claim_C9_construction_witness :
    (beamTDTInferInit C9params).isOk = false ↔ amendedInitFailure C9params = true :=
  claim_C9_construction C9params (by decide)

end TDT

namespace TDT

variable {S : Type} [LinearOrderedCommRing S]

/-- `find?` returns the head of the filtered list. -/
theorem find?_eq_head?_filter {α : Type} (p : α → Bool) :
    ∀ l : List α, l.find? p = (l.filter p).head? := by
  intro l
  induction l with
  | nil => rfl
  | cons a l ih =>
    by_cases hpa : p a = true
    · rw [List.find?_cons_of_pos _ hpa, List.filter_cons, if_pos hpa]
      rfl
    · rw [List.find?_cons_of_neg _ hpa, List.filter_cons, if_neg hpa, ih]

/-- Inserting in front when the head is dominated. -/
theorem orderedInsert_cons_of_head {α : Type} (r : α → α → Prop) [DecidableRel r]
    (a : α) (M : List α) (h : ∀ x, M.head? = some x → r a x) :
    List.orderedInsert r a M = a :: M := by
  cases M with
  | nil => rfl
  | cons c M =>
    have hoi : List.orderedInsert r a (c :: M) =
        if r a c then a :: c :: M else c :: List.orderedInsert r a M := rfl
    rw [hoi, if_pos (h c rfl)]

/-- Filtering commutes with ordered insertion into a sorted list. -/
theorem filter_orderedInsert {α : Type} (r : α → α → Prop) [DecidableRel r]
    [IsTrans α r] (p : α → Bool) (a : α) :
    ∀ L : List α, L.Sorted r →
      (List.orderedInsert r a L).filter p =
        if p a = true then List.orderedInsert r a (L.filter p) else L.filter p := by
  intro L
  induction L with
  | nil =>
    intro _
    have h0 : List.orderedInsert r a ([] : List α) = [a] := rfl
    by_cases hpa : p a = true
    · rw [h0, List.filter_cons, if_pos hpa, List.filter_nil, if_pos hpa]
      exact h0.symm
    · rw [h0, List.filter_cons, if_neg hpa, List.filter_nil, if_neg hpa]
  | cons b L ih =>
    intro hs
    rw [List.sorted_cons] at hs
    have hoi : List.orderedInsert r a (b :: L) =
        if r a b then a :: b :: L else b :: List.orderedInsert r a L := rfl
    have hoi2 : List.orderedInsert r a (b :: L.filter p) =
        if r a b then a :: b :: L.filter p
        else b :: List.orderedInsert r a (L.filter p) := rfl
    by_cases hab : r a b
    · rw [hoi, if_pos hab]
      by_cases hpa : p a = true
      · by_cases hpb : p b = true
        · rw [if_pos hpa, List.filter_cons, if_pos hpa, List.filter_cons, if_pos hpb,
            hoi2, if_pos hab]
        · have hins : List.orderedInsert r a (L.filter p) = a :: L.filter p := by
            apply orderedInsert_cons_of_head
            intro x hx
            have hxL : x ∈ L.filter p := by
              cases hfx : L.filter p with
              | nil => rw [hfx] at hx; cases hx
              | cons y ys => rw [hfx] at hx; cases hx; exact List.mem_cons_self _ _
            exact Trans.trans hab (hs.1 x (List.mem_of_mem_filter hxL))
          rw [if_pos hpa, List.filter_cons, if_pos hpa, List.filter_cons, if_neg hpb, hins]
      · rw [if_neg hpa, List.filter_cons, if_neg hpa]
    · rw [hoi, if_neg hab]
      by_cases hpa : p a = true
      · by_cases hpb : p b = true
        · rw [if_pos hpa, List.filter_cons, if_pos hpb, List.filter_cons, ih hs.2,
            if_pos hpa, if_pos hpb, hoi2, if_neg hab]
        · rw [if_pos hpa, List.filter_cons, if_neg hpb, List.filter_cons, if_neg hpb,
            ih hs.2, if_pos hpa]
      · by_cases hpb : p b = true
        · rw [if_neg hpa, List.filter_cons, if_pos hpb, List.filter_cons, if_pos hpb,
            ih hs.2, if_neg hpa]
        · rw [if_neg hpa, List.filter_cons, if_neg hpb, List.filter_cons, if_neg hpb,
            ih hs.2, if_neg hpa]

/-- Filtering commutes with the stable insertion sort. -/
theorem filter_insertionSort {α : Type} (r : α → α → Prop) [DecidableRel r]
    [IsTotal α r] [IsTrans α r] (p : α → Bool) :
    ∀ l : List α, (List.insertionSort r l).filter p = List.insertionSort r (l.filter p) := by
  intro l
  induction l with
  | nil => rfl
  | cons a l ih =>
    have h1 : List.insertionSort r (a :: l) =
        List.orderedInsert r a (List.insertionSort r l) := rfl
    rw [h1, filter_orderedInsert r p a _ (List.sorted_insertionSort r l), ih,
      List.filter_cons]
    by_cases hpa : p a = true
    · rw [if_pos hpa, if_pos hpa]
      rfl
    · rw [if_neg hpa, if_neg hpa]

/-- The head of the descending stable sort is the first input element carrying
the maximal score. -/
theorem head_sortDesc_find (F : List (Hyp S)) (m : S)
    (hmem : ∃ h ∈ F, h.score = m) (hub : ∀ h ∈ F, h.score ≤ m) :
    (sortDescScore F).head? = F.find? (fun h => decide (h.score = m)) := by
  induction F with
  | nil => rcases hmem with ⟨h, hh, _⟩; cases hh
  | cons f F ih =>
    have hstep : sortDescScore (f :: F) =
        List.orderedInsert scoreGE f (sortDescScore F) := rfl
    by_cases hf : f.score = m
    · have hins : List.orderedInsert scoreGE f (sortDescScore F) = f :: sortDescScore F := by
        apply orderedInsert_cons_of_head
        intro c hc
        have hcF : c ∈ F := by
          have hmem2 : c ∈ sortDescScore F := by
            cases hG : sortDescScore F with
            | nil => rw [hG] at hc; cases hc
            | cons d rest => rw [hG] at hc; cases hc; exact List.mem_cons_self _ _
          exact (List.perm_insertionSort scoreGE F).mem_iff.mp hmem2
        show c.score ≤ f.score
        rw [hf]
        exact hub c (List.mem_cons_of_mem f hcF)
      rw [hstep, hins,
        List.find?_cons_of_pos (p := fun h => decide (h.score = m)) F (decide_eq_true hf)]
      rfl
    · have hmem' : ∃ h ∈ F, h.score = m := by
        rcases hmem with ⟨h, hh, he⟩
        rcases List.mem_cons.mp hh with heq | hh'
        · rw [heq] at he; exact absurd he hf
        · exact ⟨h, hh', he⟩
      have hub' : ∀ h ∈ F, h.score ≤ m := fun h hh => hub h (List.mem_cons_of_mem f hh)
      have ihe := ih hmem' hub'
      have hsome : (F.find? (fun h => decide (h.score = m))).isSome := by
        rcases hmem' with ⟨h, hh, he⟩
        exact List.find?_isSome.mpr ⟨h, hh, decide_eq_true he⟩
      obtain ⟨a, ha⟩ := Option.isSome_iff_exists.mp hsome
      have haM : a.score = m :=
        of_decide_eq_true (List.find?_some (p := fun (h : Hyp S) => decide (h.score = m)) ha)
      have hha : (sortDescScore F).head? = some a := by rw [ihe, ha]
      rw [hstep,
        List.find?_cons_of_neg (p := fun h => decide (h.score = m)) F (by simpa using hf), ha]
      cases hG : sortDescScore F with
      | nil => rw [hG] at hha; cases hha
      | cons c rest =>
        have hc : c = a := by
          rw [hG] at hha
          cases hha
          rfl
        have hflt : f.score < m := lt_of_le_of_ne (hub f (List.mem_cons_self f F)) hf
        have hnot : ¬ scoreGE f c := by
          show ¬ c.score ≤ f.score
          rw [hc, haM]
          exact not_le_of_lt hflt
        have hoi : List.orderedInsert scoreGE f (c :: rest) =
            if scoreGE f c then f :: c :: rest
            else c :: List.orderedInsert scoreGE f rest := rfl
        rw [hoi, if_neg hnot, hc]
        rfl

end TDT

namespace TDT

variable {S : Type} [LinearOrderedCommRing S]

/-- The guard of the duplicate scan tests equality of the deduplication key. -/
theorem keyDecide_eq {T : Type} (k h : Hyp T) :
    (decide (k.ySeq = h.ySeq) && decide (k.lastFrame = h.lastFrame)) =
      decide (hypKey k = hypKey h) := by
  by_cases h1 : k.ySeq = h.ySeq <;> by_cases h2 : k.lastFrame = h.lastFrame <;>
    simp [hypKey, h1, h2, Prod.ext_iff]

theorem any_key_eq {T : Type} (h : Hyp T) (kept : List (Hyp T)) :
    kept.any (fun k => decide (k.ySeq = h.ySeq) && decide (k.lastFrame = h.lastFrame)) =
      kept.any (fun k => decide (hypKey k = hypKey h)) := by
  induction kept with
  | nil => rfl
  | cons k kept ih => rw [List.any_cons, List.any_cons, ih, keyDecide_eq]

/-- What the linear scan keeps, restricted to one key: the already accepted
representative when one exists, else the first occurrence in the remaining
sorted input. -/
theorem filter_dedupScan {T : Type} (κ : List ℕ × ℕ) :
    ∀ s kept : List (Hyp T),
      (dedupScan kept s).filter (fun h => decide (hypKey h = κ)) =
        kept.filter (fun h => decide (hypKey h = κ)) ++
          (if kept.any (fun k => decide (hypKey k = κ)) = true then []
           else (s.find? (fun h => decide (hypKey h = κ))).toList) := by
  intro s
  induction s with
  | nil =>
    intro kept
    by_cases hk : kept.any (fun k => decide (hypKey k = κ)) = true
    · rw [if_pos hk, List.append_nil]
      rfl
    · rw [if_neg hk]
      have hto : (List.find? (fun h => decide (hypKey h = κ)) ([] : List (Hyp T))).toList = [] := rfl
      rw [hto, List.append_nil]
      rfl
  | cons h rest ih =>
    intro kept
    have hguard : dedupScan kept (h :: rest) =
        if (kept.any (fun k =>
            decide (k.ySeq = h.ySeq) && decide (k.lastFrame = h.lastFrame))) = true then
          dedupScan kept rest
        else dedupScan (kept ++ [h]) rest := rfl
    by_cases hg : kept.any (fun k =>
        decide (k.ySeq = h.ySeq) && decide (k.lastFrame = h.lastFrame)) = true
    · rw [hguard, if_pos hg, ih kept]
      congr 1
      by_cases hk : kept.any (fun k => decide (hypKey k = κ)) = true
      · rw [if_pos hk, if_pos hk]
      · rw [if_neg hk, if_neg hk]
        have hkey : ¬ hypKey h = κ := by
          intro hEq
          rw [any_key_eq] at hg
          obtain ⟨k, hkmem, hkk⟩ := List.any_eq_true.mp hg
          apply hk
          refine List.any_eq_true.mpr ⟨k, hkmem, ?_⟩
          rw [← hEq]
          exact hkk
        rw [List.find?_cons_of_neg (p := fun g => decide (hypKey g = κ)) rest
          (by simpa using hkey)]
    · rw [hguard, if_neg hg, ih (kept ++ [h])]
      by_cases hh : hypKey h = κ
      · have hkf : kept.any (fun k => decide (hypKey k = κ)) = false := by
          rw [any_key_eq h kept] at hg
          rw [← hh]
          exact Bool.not_eq_true _ |>.mp hg
        rw [List.filter_append, List.any_append]
        have hfh : [h].filter (fun g => decide (hypKey g = κ)) = [h] := by simp [hh]
        have hah : [h].any (fun g => decide (hypKey g = κ)) = true := by simp [hh]
        rw [hfh, hah, Bool.or_true, if_pos rfl, List.append_nil,
          if_neg (by rw [hkf]; exact Bool.false_ne_true),
          List.find?_cons_of_pos (p := fun g => decide (hypKey g = κ)) rest
            (decide_eq_true hh)]
        rfl
      · rw [List.filter_append, List.any_append]
        have hfh : [h].filter (fun g => decide (hypKey g = κ)) = [] := by simp [hh]
        have hah : [h].any (fun g => decide (hypKey g = κ)) = false := by simp [hh]
        rw [hfh, hah, Bool.or_false, List.append_nil]
        congr 1
        by_cases hk : kept.any (fun k => decide (hypKey k = κ)) = true
        · rw [if_pos hk, if_pos hk]
        · rw [if_neg hk, if_neg hk,
            List.find?_cons_of_neg (p := fun g => decide (hypKey g = κ)) rest
              (by simpa using hh)]

/-- C6: duplicate suppression returns, for every key, exactly the
maximum-scored representative of that key, resolved first-seen-first among
equal scores: its restriction to any key equals the single hypothesis
`firstMaxByKey` (the first input hypothesis of that key whose score is
maximal), or nothing when the key is absent. -/
theorem claim_C6_duplicate_suppression (l : List (Hyp S)) (κ : List ℕ × ℕ) :
    (removeDuplicateHypotheses l).filter (fun h => decide (hypKey h = κ)) =
      (firstMaxByKey l κ).toList := by
  unfold removeDuplicateHypotheses
  rw [filter_dedupScan κ (sortDescScore l) [], List.filter_nil, List.nil_append]
  have hemp : (([] : List (Hyp S)).any (fun k => decide (hypKey k = κ))) = false := rfl
  rw [if_neg (by rw [hemp]; exact Bool.false_ne_true)]
  rw [find?_eq_head?_filter]
  have hfs : (sortDescScore l).filter (fun h => decide (hypKey h = κ)) =
      sortDescScore (l.filter (fun h => decide (hypKey h = κ))) :=
    filter_insertionSort scoreGE _ l
  rw [hfs]
  unfold firstMaxByKey
  cases hmax : ((l.filter (fun h => decide (hypKey h = κ))).map Hyp.score).max? with
  | none =>
    have hnil : l.filter (fun h => decide (hypKey h = κ)) = [] := by
      have hm := List.max?_eq_none_iff.mp hmax
      simpa using hm
    rw [hnil]
    rfl
  | some m =>
    obtain ⟨hmm, hub⟩ := max?_facts hmax
    obtain ⟨h0, h0mem, h0eq⟩ := List.mem_map.mp hmm
    rw [head_sortDesc_find (l.filter (fun h => decide (hypKey h = κ))) m
      ⟨h0, h0mem, h0eq⟩ (fun h hh => hub _ (List.mem_map_of_mem Hyp.score hh))]

end TDT

namespace TDT

variable {S : Type} [LinearOrderedCommRing S]

/-- Every exit of the mAES round loop either returns the kept set unchanged or
caps it at `beam`. -/
theorem maesRounds_length_le (cfg : TDTConfig S) (o : TDTOracle S) (t : ℕ)
    (dup : List (List ℕ)) :
    ∀ (r : ℕ) (hyps listB listNB kept : List (Hyp S)),
      (maesRounds cfg o t dup r hyps listB listNB kept).length ≤
        max kept.length cfg.beam := by
  intro r
  induction r with
  | zero =>
    intro hyps listB listNB kept
    simp only [maesRounds]
    exact le_max_left _ _
  | succ r ih =>
    intro hyps listB listNB kept
    simp only [maesRounds]
    split
    · exact le_trans (List.length_take_le _ _) (le_max_right _ _)
    · split
      · exact le_trans (List.length_take_le _ _) (le_max_right _ _)
      · exact ih _ _ _ _

/-- One mAES frame never grows the kept set beyond `max` of its previous size
and `beam`. -/
theorem maesFrame_length_le (cfg : TDTConfig S) (o : TDTOracle S)
    (kept : List (Hyp S)) (t : ℕ) :
    (maesFrame cfg o kept t).length ≤ max kept.length cfg.beam := by
  simp only [maesFrame]
  split
  · exact le_trans (List.length_filter_le _ _) (le_max_left _ _)
  · split
    · exact le_trans (maesRounds_length_le cfg o t _ _ _ _ _ _)
        (max_le_max (List.length_filter_le _ _) le_rfl)
    · exact le_trans (maesRounds_length_le cfg o t _ _ _ _ _ _)
        (max_le_max (List.length_filter_le _ _) le_rfl)

/-- After every mAES frame boundary, at most `beam` hypotheses survive. -/
theorem maesKept_length_le (cfg : TDTConfig S) (o : TDTOracle S)
    (h1 : 1 ≤ cfg.beamSize) (h2 : 1 ≤ cfg.vocabSize) :
    ∀ T, (maesKept cfg o T).length ≤ cfg.beam := by
  intro T
  induction T with
  | zero =>
    simp only [maesKept, List.range_zero, List.foldl_nil, List.length_cons,
      List.length_nil]
    exact le_min h1 h2
  | succ T ih =>
    simp only [maesKept, List.range_succ, List.foldl_append, List.foldl_cons,
      List.foldl_nil]
    simp only [maesKept] at ih
    exact le_trans (maesFrame_length_le cfg o _ T) (max_le ih le_rfl)

/-- C4 (amended): after every frame boundary the mAES surviving set has size at
most `beam`; in default search the cap to `beam` applies only when the frame's
queue empties — a frame ending through the early-termination break instead
keeps the entire qualifying set, which has at least `beam` (and possibly more)
hypotheses. -/
theorem claim_C4_frontier_bound (cfg : TDTConfig S) (o : TDTOracle S)
    (h1 : 1 ≤ cfg.beamSize) (h2 : 1 ≤ cfg.vocabSize) :
    (∀ T, (maesKept cfg o T).length ≤ cfg.beam) ∧
    (∀ (beam : ℕ) (kept : List (Hyp S)),
      ((defaultTerminationCheck beam ([] : List (Hyp S)) kept).1).length ≤ beam) ∧
    (∀ (beam : ℕ) (hyps kept : List (Hyp S)), hyps ≠ [] →
      (defaultTerminationCheck beam hyps kept).2 = true →
      beam ≤ ((defaultTerminationCheck beam hyps kept).1).length) := by
  refine ⟨maesKept_length_le cfg o h1 h2, ?_, ?_⟩
  · intro beam kept
    exact List.length_take_le _ _
  · intro beam hyps kept hne hbrk
    match hyps, hne with
    | a :: hyps', _ =>
      by_cases hcond : beam ≤
          (sortAscScore ((kept.filter (fun h => decide (maxScore (a :: hyps') < h.score))))).length
      · have heq : defaultTerminationCheck beam (a :: hyps') kept =
            (sortAscScore (kept.filter (fun h => decide (maxScore (a :: hyps') < h.score))),
              true) := by
          unfold defaultTerminationCheck
          simp only [if_pos hcond]
        rw [heq]
        exact hcond
      · have heq : defaultTerminationCheck beam (a :: hyps') kept = (kept, false) := by
          unfold defaultTerminationCheck
          simp only [if_neg hcond]
        rw [heq] at hbrk
        cases hbrk

/-- C4 counterexample: a concrete default-search decode with `beam = 1` whose
single frame ends with TWO surviving hypotheses — the early-termination break
keeps the whole qualifying set, so the claimed `≤ beam` frontier bound after
every frame boundary is false. -/
theorem claim_C4_counterexample :
    C4cfg.beam = 1 ∧ (defaultKept C4cfg C4oracle 1 5).length = 2 := by
  constructor
  · rfl
  · decide

/-- C4 witness. -/
theorem claim_C4_frontier_bound_witness :
    (∀ T, (maesKept C8cfg C8oracle T).length ≤ C8cfg.beam) ∧
    (∀ (beam : ℕ) (kept : List (Hyp ℚ)),
      ((defaultTerminationCheck beam ([] : List (Hyp ℚ)) kept).1).length ≤ beam) ∧
    (∀ (beam : ℕ) (hyps kept : List (Hyp ℚ)), hyps ≠ [] →
      (defaultTerminationCheck beam hyps kept).2 = true →
      beam ≤ ((defaultTerminationCheck beam hyps kept).1).length) :=
  claim_C4_frontier_bound C8cfg C8oracle (by decide) (by decide)

end TDT

namespace TDT

/-- C1 (code bug): in mAES the blank-duration substitution is guarded by the
Python truthiness of `self.zero_duration_idx`, so with the typical duration
table `[0, 2]` — zero duration at index 0 — the guard is falsy and no
substitution happens: decoding one frame of this concrete input produces a
kept hypothesis that records a blank emission with zero duration
(`y_sequence` still the sentinel `[blank]` and `last_frame` still 0, not
advanced), contradicting the claimed invariant and the source's own comment
"Forcing blank token to have non-zero duration". -/
theorem claim_C1_blank_zero_duration :
    C1cfg.zeroDurationIdx = some 0 ∧
    (maesKept C1cfg C1oracle 1).map (fun h => (h.ySeq, h.lastFrame)) =
      [([C1cfg.blank], 0)] := by
  constructor
  · rfl
  · decide

/-- C2 (code bug): the duplication check of an mAES expansion round tests
`new_hyp.y_sequence + [int(k)]` AFTER `k` has already been appended to
`y_sequence`, i.e. the source sequence with `k` appended twice.  On this
concrete input the non-blank zero-duration expansion produces the sequence
`[2, 1]`, which IS in the snapshotted duplication check, yet the expansion is
routed to the round-local expansion list (third component) and not to the
non-blank non-zero list (second component, empty), contradicting the claimed
routing rule. -/
theorem claim_C2_duplication_check :
    ((maesRoundCore C2cfg C2oracle 0 [[2], [2, 1]] [maesStartHyp C2cfg] [] []).2.2).map
        Hyp.ySeq = [[2, 1]] ∧
    (maesRoundCore C2cfg C2oracle 0 [[2], [2, 1]] [maesStartHyp C2cfg] [] []).2.1 = [] ∧
    [2, 1] ∈ [[2], [2, 1]] := by
  refine ⟨by decide, by decide, by decide⟩

end TDT

namespace TDT

variable {S : Type} [LinearOrderedCommRing S]

/-- Appending a non-blank token preserves the sentinel shape. -/
theorem seqInv_append {blank k : ℕ} {l : List ℕ} (h : seqInv blank l)
    (hk : k ≠ blank) : seqInv blank (l ++ [k]) := by
  obtain ⟨h1, h2⟩ := h
  cases l with
  | nil => cases h1
  | cons a l =>
    refine ⟨h1, ?_⟩
    intro x hx
    rcases List.mem_append.mp hx with hx | hx
    · exact h2 x hx
    · rw [List.mem_singleton.mp hx]
      exact hk

/-- Fold invariance: a property preserved by every step holds of the fold. -/
theorem foldl_preserves {α β : Type} (Q : β → Prop) (f : β → α → β) :
    ∀ l : List α, (∀ b a, a ∈ l → Q b → Q (f b a)) → ∀ b, Q b → Q (l.foldl f b) := by
  intro l
  induction l with
  | nil => intro _ b hb; exact hb
  | cons a l ih =>
    intro hf b hb
    exact ih (fun b' a' ha' => hf b' a' (List.mem_cons_of_mem a ha')) (f b a)
      (hf b a (List.mem_cons_self a l) hb)

/-- `popMax` returns a member and a sublist of members. -/
theorem popMax_mem : ∀ (l : List (Hyp S)) (m : Hyp S) (rest : List (Hyp S)),
    popMax l = some (m, rest) → m ∈ l ∧ ∀ x ∈ rest, x ∈ l := by
  intro l
  induction l with
  | nil => intro m rest h; cases h
  | cons h t ih =>
    intro m rest hp
    simp only [popMax] at hp
    split at hp
    · simp only [Option.some.injEq, Prod.mk.injEq] at hp
      obtain ⟨rfl, rfl⟩ := hp
      exact ⟨List.mem_cons_self _ _, fun x hx => absurd hx (List.not_mem_nil x)⟩
    · rename_i m' rest' hpt
      obtain ⟨hm', hr'⟩ := ih m' rest' hpt
      split at hp
      · simp only [Option.some.injEq, Prod.mk.injEq] at hp
        obtain ⟨rfl, rfl⟩ := hp
        refine ⟨List.mem_cons_of_mem h hm', ?_⟩
        intro x hx
        rcases List.mem_cons.mp hx with rfl | hx
        · exact List.mem_cons_self _ _
        · exact List.mem_cons_of_mem h (hr' x hx)
      · simp only [Option.some.injEq, Prod.mk.injEq] at hp
        obtain ⟨rfl, rfl⟩ := hp
        exact ⟨List.mem_cons_self _ _, fun x hx => List.mem_cons_of_mem _ hx⟩

/-- Members of the sorted lists are members of the input. -/
theorem mem_sortDescScore {l : List (Hyp S)} {g : Hyp S}
    (hg : g ∈ sortDescScore l) : g ∈ l :=
  (List.perm_insertionSort scoreGE l).mem_iff.mp hg

theorem mem_sortAscScore {l : List (Hyp S)} {g : Hyp S}
    (hg : g ∈ sortAscScore l) : g ∈ l :=
  (List.perm_insertionSort scoreLE l).mem_iff.mp hg

theorem mem_sortDescLen {T : Type} {l : List (Hyp T)} {g : Hyp T}
    (hg : g ∈ sortDescLen l) : g ∈ l :=
  (List.perm_insertionSort lenGE l).mem_iff.mp hg

theorem mem_sortNBest {F : Type} [LinearOrderedField F] {cfg : TDTConfig F}
    {l : List (Hyp F)} {g : Hyp F} (hg : g ∈ sortNBest cfg l) : g ∈ l := by
  unfold sortNBest at hg
  split at hg
  · exact (List.perm_insertionSort normGE l).mem_iff.mp hg
  · exact mem_sortDescScore hg

/-- The duplicate scan only returns hypotheses it was given. -/
theorem mem_dedupScan {T : Type} : ∀ (s kept : List (Hyp T)) (h : Hyp T),
    h ∈ dedupScan kept s → h ∈ kept ∨ h ∈ s := by
  intro s
  induction s with
  | nil =>
    intro kept h hh
    simp only [dedupScan] at hh
    exact Or.inl hh
  | cons x rest ih =>
    intro kept h hh
    simp only [dedupScan] at hh
    split at hh
    · rcases ih kept h hh with h1 | h1
      · exact Or.inl h1
      · exact Or.inr (List.mem_cons_of_mem x h1)
    · rcases ih (kept ++ [x]) h hh with h1 | h1
      · rcases List.mem_append.mp h1 with h2 | h2
        · exact Or.inl h2
        · rw [List.mem_singleton.mp h2]
          exact Or.inr (List.mem_cons_self _ _)
      · exact Or.inr (List.mem_cons_of_mem x h1)

/-- Duplicate suppression only returns input hypotheses. -/
theorem mem_removeDuplicate {l : List (Hyp S)} {h : Hyp S}
    (hh : h ∈ removeDuplicateHypotheses l) : h ∈ l := by
  unfold removeDuplicateHypotheses at hh
  rcases mem_dedupScan _ [] h hh with h1 | h1
  · cases h1
  · exact mem_sortDescScore h1

/-- Indices returned by the top-k are valid positions of the input. -/
theorem topkDesc_idx_lt {k : ℕ} {xs : List S} {p : ℕ × S}
    (hp : p ∈ topkDesc k xs) : p.1 < xs.length := by
  unfold topkDesc at hp
  exact List.fst_lt_of_mem_enum
    ((List.perm_insertionSort pairValGE xs.enum).mem_iff.mp (List.mem_of_mem_take hp))

theorem topkDesc_length (k : ℕ) (xs : List S) :
    (topkDesc k xs).length = min k xs.length := by
  unfold topkDesc
  rw [List.length_take, List.length_insertionSort, List.enum_length]

end TDT
namespace TDT

variable {S : Type} [LinearOrderedCommRing S]

/-- One routing step of an mAES round keeps the sentinel shape of every token
sequence: the blank branch leaves `y_sequence` unchanged and the other branch
appends a token known to differ from the blank id. -/
theorem maesExpandStep_inv (cfg : TDTConfig S) (o : TDTOracle S) (t : ℕ)
    (dupCheck : List (List ℕ)) (hyp : Hyp S) (row drow : List S)
    (acc : List (Hyp S) × List (Hyp S) × List (Hyp S)) (e : ℕ × ℕ × S)
    (hhyp : seqInv cfg.blank hyp.ySeq)
    (h1 : ∀ g ∈ acc.1, seqInv cfg.blank g.ySeq)
    (h2 : ∀ g ∈ acc.2.1, seqInv cfg.blank g.ySeq)
    (h3 : ∀ g ∈ acc.2.2, seqInv cfg.blank g.ySeq) :
    (∀ g ∈ (maesExpandStep cfg o t dupCheck hyp row drow acc e).1,
      seqInv cfg.blank g.ySeq) ∧
    (∀ g ∈ (maesExpandStep cfg o t dupCheck hyp row drow acc e).2.1,
      seqInv cfg.blank g.ySeq) ∧
    (∀ g ∈ (maesExpandStep cfg o t dupCheck hyp row drow acc e).2.2,
      seqInv cfg.blank g.ySeq) := by
  simp only [maesExpandStep]
  split_ifs
  all_goals
    first
    | exact ⟨fun g hg => (List.mem_append.mp hg).elim (h1 g)
          (fun hg => by rw [List.mem_singleton.mp hg]; exact hhyp), h2, h3⟩
    | exact ⟨h1, h2, fun g hg => (List.mem_append.mp hg).elim (h3 g)
          (fun hg => by
            rw [List.mem_singleton.mp hg]
            exact seqInv_append hhyp (by assumption))⟩
    | exact ⟨h1, fun g hg => (List.mem_append.mp hg).elim (h2 g)
          (fun hg => by
            rw [List.mem_singleton.mp hg]
            exact seqInv_append hhyp (by assumption)), h3⟩

/-- The whole routing loop of an mAES round keeps the sentinel shape. -/
theorem maesRouteExpansions_inv (cfg : TDTConfig S) (o : TDTOracle S) (t : ℕ)
    (dupCheck : List (List ℕ)) (hyps : List (Hyp S)) (rows drows : List (List S))
    (kexp : List (List (ℕ × ℕ × S))) (listB listNB : List (Hyp S))
    (hh : ∀ g ∈ hyps, seqInv cfg.blank g.ySeq)
    (hb : ∀ g ∈ listB, seqInv cfg.blank g.ySeq)
    (hnb : ∀ g ∈ listNB, seqInv cfg.blank g.ySeq) :
    (∀ g ∈ (maesRouteExpansions cfg o t dupCheck hyps rows drows kexp listB listNB).1,
      seqInv cfg.blank g.ySeq) ∧
    (∀ g ∈ (maesRouteExpansions cfg o t dupCheck hyps rows drows kexp listB listNB).2.1,
      seqInv cfg.blank g.ySeq) ∧
    (∀ g ∈ (maesRouteExpansions cfg o t dupCheck hyps rows drows kexp listB listNB).2.2,
      seqInv cfg.blank g.ySeq) := by
  unfold maesRouteExpansions
  refine foldl_preserves
    (fun p : List (Hyp S) × List (Hyp S) × List (Hyp S) =>
      (∀ g ∈ p.1, seqInv cfg.blank g.ySeq) ∧
      (∀ g ∈ p.2.1, seqInv cfg.blank g.ySeq) ∧
      (∀ g ∈ p.2.2, seqInv cfg.blank g.ySeq))
    _ hyps.enum ?_ (listB, listNB, [])
    ⟨hb, hnb, fun g hg => absurd hg (List.not_mem_nil g)⟩
  intro b ih hih hQ
  refine foldl_preserves
    (fun p : List (Hyp S) × List (Hyp S) × List (Hyp S) =>
      (∀ g ∈ p.1, seqInv cfg.blank g.ySeq) ∧
      (∀ g ∈ p.2.1, seqInv cfg.blank g.ySeq) ∧
      (∀ g ∈ p.2.2, seqInv cfg.blank g.ySeq))
    (maesExpandStep cfg o t dupCheck ih.2 (rows.getD ih.1 []) (drows.getD ih.1 []))
    (kexp.getD ih.1 []) ?_ b hQ
  intro b' e _ hQ'
  have hy : seqInv cfg.blank ih.2.ySeq := by
    have hm : ih.2 ∈ hyps.enum.map Prod.snd := List.mem_map_of_mem Prod.snd hih
    rw [List.enum_map_snd] at hm
    exact hh ih.2 hm
  exact maesExpandStep_inv cfg o t dupCheck ih.2 _ _ b' e hy hQ'.1 hQ'.2.1 hQ'.2.2

/-- The predictor refresh touches only `dec_out`, so it keeps the sentinel
shape. -/
theorem refreshDecOut_inv {T : Type} (blank : ℕ) (l : List (Hyp T))
    (hl : ∀ g ∈ l, seqInv blank g.ySeq) :
    ∀ g ∈ refreshDecOut l, seqInv blank g.ySeq := by
  intro g hg
  obtain ⟨h, hh, rfl⟩ := List.mem_map.mp hg
  exact hl h hh

/-- The last-round blank scoring touches only score and `last_frame`, so it
keeps the sentinel shape. -/
theorem maesLastRoundBlank_inv (cfg : TDTConfig S) (o : TDTOracle S) (t : ℕ)
    (l : List (Hyp S)) (hl : ∀ g ∈ l, seqInv cfg.blank g.ySeq) :
    ∀ g ∈ maesLastRoundBlank cfg o t l, seqInv cfg.blank g.ySeq := by
  intro g hg
  obtain ⟨h, hh, rfl⟩ := List.mem_map.mp hg
  exact hl h hh

/-- A full mAES expansion round keeps the sentinel shape on all three output
lists. -/
theorem maesRoundCore_inv (cfg : TDTConfig S) (o : TDTOracle S) (t : ℕ)
    (dupCheck : List (List ℕ)) (hyps listB listNB : List (Hyp S))
    (hh : ∀ g ∈ hyps, seqInv cfg.blank g.ySeq)
    (hb : ∀ g ∈ listB, seqInv cfg.blank g.ySeq)
    (hnb : ∀ g ∈ listNB, seqInv cfg.blank g.ySeq) :
    (∀ g ∈ (maesRoundCore cfg o t dupCheck hyps listB listNB).1,
      seqInv cfg.blank g.ySeq) ∧
    (∀ g ∈ (maesRoundCore cfg o t dupCheck hyps listB listNB).2.1,
      seqInv cfg.blank g.ySeq) ∧
    (∀ g ∈ (maesRoundCore cfg o t dupCheck hyps listB listNB).2.2,
      seqInv cfg.blank g.ySeq) := by
  unfold maesRoundCore
  refine ⟨?_, ?_, ?_⟩
  · exact (maesRouteExpansions_inv cfg o t dupCheck hyps _ _ _ listB listNB hh hb hnb).1
  · exact refreshDecOut_inv _ _
      (maesRouteExpansions_inv cfg o t dupCheck hyps _ _ _ listB listNB hh hb hnb).2.1
  · exact refreshDecOut_inv _ _
      (maesRouteExpansions_inv cfg o t dupCheck hyps _ _ _ listB listNB hh hb hnb).2.2

/-- The mAES round loop keeps the sentinel shape of every surviving
hypothesis. -/
theorem maesRounds_inv (cfg : TDTConfig S) (o : TDTOracle S) (t : ℕ)
    (dupCheck : List (List ℕ)) :
    ∀ (r : ℕ) (hyps listB listNB kept : List (Hyp S)),
      (∀ g ∈ hyps, seqInv cfg.blank g.ySeq) →
      (∀ g ∈ listB, seqInv cfg.blank g.ySeq) →
      (∀ g ∈ listNB, seqInv cfg.blank g.ySeq) →
      (∀ g ∈ kept, seqInv cfg.blank g.ySeq) →
      ∀ g ∈ maesRounds cfg o t dupCheck r hyps listB listNB kept,
        seqInv cfg.blank g.ySeq := by
  intro r
  induction r with
  | zero =>
    intro hyps listB listNB kept _ _ _ hk g hg
    simp only [maesRounds] at hg
    exact hk g hg
  | succ r ih =>
    intro hyps listB listNB kept hh hb hnb hk g hg
    simp only [maesRounds] at hg
    have H := maesRoundCore_inv cfg o t dupCheck hyps listB listNB hh hb hnb
    split at hg
    · have hg2 := mem_removeDuplicate (mem_sortDescScore (List.mem_of_mem_take hg))
      rcases List.mem_append.mp hg2 with hg3 | hg3
      · rcases List.mem_append.mp hg3 with hg4 | hg4
        · exact hk g hg4
        · exact H.1 g hg4
      · exact H.2.1 g hg3
    · split at hg
      · have hg2 := mem_removeDuplicate (mem_sortDescScore (List.mem_of_mem_take hg))
        rcases List.mem_append.mp hg2 with hg3 | hg3
        · rcases List.mem_append.mp hg3 with hg4 | hg4
          · rcases List.mem_append.mp hg4 with hg5 | hg5
            · exact hk g hg5
            · exact H.1 g hg5
          · exact maesLastRoundBlank_inv cfg o t _ (fun x hx => H.2.2 x hx) g hg4
        · exact H.2.1 g hg3
      · exact ih _ _ _ _
          (fun x hx => H.2.2 x (mem_removeDuplicate hx)) H.1 H.2.1 hk g hg

/-- One mAES frame keeps the sentinel shape. -/
theorem maesFrame_inv (cfg : TDTConfig S) (o : TDTOracle S)
    (kept : List (Hyp S)) (t : ℕ)
    (hk : ∀ g ∈ kept, seqInv cfg.blank g.ySeq) :
    ∀ g ∈ maesFrame cfg o kept t, seqInv cfg.blank g.ySeq := by
  simp only [maesFrame]
  split
  · exact fun g hg => hk g (List.mem_of_mem_filter hg)
  · split
    · refine maesRounds_inv cfg o t _ cfg.maesNumSteps _ [] [] _ ?_ ?_ ?_ ?_
      · intro g hg
        obtain ⟨h', hh', he⟩ := prefixSearch_ySeq_mem cfg o t _ g hg
        rw [he]
        exact hk h' (List.mem_of_mem_filter (mem_sortDescLen hh'))
      · exact fun g hg => absurd hg (List.not_mem_nil g)
      · exact fun g hg => absurd hg (List.not_mem_nil g)
      · exact fun g hg => hk g (List.mem_of_mem_filter hg)
    · refine maesRounds_inv cfg o t _ cfg.maesNumSteps _ [] [] _ ?_ ?_ ?_ ?_
      · exact fun g hg => hk g (List.mem_of_mem_filter hg)
      · exact fun g hg => absurd hg (List.not_mem_nil g)
      · exact fun g hg => absurd hg (List.not_mem_nil g)
      · exact fun g hg => hk g (List.mem_of_mem_filter hg)

/-- Every hypothesis surviving the mAES frame loop has the sentinel shape. -/
theorem maesKept_inv (cfg : TDTConfig S) (o : TDTOracle S) (T : ℕ) :
    ∀ g ∈ maesKept cfg o T, seqInv cfg.blank g.ySeq := by
  unfold maesKept
  refine foldl_preserves (fun kept => ∀ g ∈ kept, seqInv cfg.blank g.ySeq)
    (maesFrame cfg o) (List.range T)
    (fun kept t _ hk => maesFrame_inv cfg o kept t hk) _ ?_
  intro g hg
  rw [List.mem_singleton.mp hg]
  exact ⟨rfl, fun x hx => absurd hx (List.not_mem_nil x)⟩

/-- A token-pair expansion step of the default search appends a token drawn
from the blank-free top-k, so the sentinel shape survives on both lists. -/
theorem defaultTokenStep_inv (cfg : TDTConfig S) (t beamK : ℕ) (h : Hyp S)
    (tokTopk durTopk : List (ℕ × S)) (acc : List (Hyp S) × List (Hyp S))
    (s : ℕ × S)
    (hh : seqInv cfg.blank h.ySeq)
    (htok : ∀ p ∈ tokTopk, p.1 ≠ cfg.blank)
    (hidx : s.1 % beamK < tokTopk.length)
    (h1 : ∀ g ∈ acc.1, seqInv cfg.blank g.ySeq)
    (h2 : ∀ g ∈ acc.2, seqInv cfg.blank g.ySeq) :
    (∀ g ∈ (defaultTokenStep cfg t beamK h tokTopk durTopk acc s).1,
      seqInv cfg.blank g.ySeq) ∧
    (∀ g ∈ (defaultTokenStep cfg t beamK h tokTopk durTopk acc s).2,
      seqInv cfg.blank g.ySeq) := by
  have hget : tokTopk.getD (s.1 % beamK) (0, 0) ∈ tokTopk := by
    rw [List.getD_eq_getElem?_getD, List.getElem?_eq_getElem hidx]
    exact List.getElem_mem hidx
  have hnew : seqInv cfg.blank (h.ySeq ++ [(tokTopk.getD (s.1 % beamK) (0, 0)).1]) :=
    seqInv_append hh (htok _ hget)
  simp only [defaultTokenStep]
  split
  · refine ⟨?_, h2⟩
    intro g hg
    rcases List.mem_append.mp hg with hg | hg
    · exact h1 g hg
    · rw [List.mem_singleton.mp hg]
      exact hnew
  · refine ⟨h1, ?_⟩
    intro g hg
    rcases List.mem_append.mp hg with hg | hg
    · exact h2 g hg
    · rw [List.mem_singleton.mp hg]
      exact hnew

/-- A blank expansion step of the default search keeps `y_sequence`
unchanged, so the sentinel shape survives. -/
theorem defaultBlankStep_inv (cfg : TDTConfig S) (h : Hyp S)
    (logp durLogp : List S) (durTopk : List (ℕ × S)) (acc : List (Hyp S))
    (d : ℕ × S)
    (hh : seqInv cfg.blank h.ySeq)
    (hacc : ∀ g ∈ acc, seqInv cfg.blank g.ySeq) :
    ∀ g ∈ defaultBlankStep cfg h logp durLogp durTopk acc d,
      seqInv cfg.blank g.ySeq := by
  simp only [defaultBlankStep]
  split
  · exact hacc
  · intro g hg
    rcases List.mem_append.mp hg with hg | hg
    · exact hacc g hg
    · rw [List.mem_singleton.mp hg]
      exact hh

/-- Expanding the best hypothesis of the default search keeps the sentinel
shape: the blank probability sits at the final vocabulary position, which is
sliced away before the token top-k. -/
theorem defaultExpandHyp_inv (cfg : TDTConfig S) (o : TDTOracle S)
    (t beamK dBeamK : ℕ) (h : Hyp S) (hyps kept : List (Hyp S))
    (hblank : cfg.vocabSize ≤ cfg.blank)
    (hlen : (o.tok t h.ySeq).length = cfg.vocabSize + 1)
    (hbk : beamK ≤ cfg.vocabSize)
    (hh : seqInv cfg.blank h.ySeq)
    (hhyps : ∀ g ∈ hyps, seqInv cfg.blank g.ySeq)
    (hkept : ∀ g ∈ kept, seqInv cfg.blank g.ySeq) :
    (∀ g ∈ (defaultExpandHyp cfg o t beamK dBeamK h hyps kept).1,
      seqInv cfg.blank g.ySeq) ∧
    (∀ g ∈ (defaultExpandHyp cfg o t beamK dBeamK h hyps kept).2,
      seqInv cfg.blank g.ySeq) := by
  have hdl : ((o.tok t h.ySeq).dropLast).length = cfg.vocabSize := by
    rw [List.length_dropLast, hlen]
    omega
  simp only [defaultExpandHyp]
  set tokT := topkDesc beamK ((o.tok t h.ySeq).dropLast) with hT
  set durT := topkDesc dBeamK (o.dur t h.ySeq) with hD
  set sums := topkDesc beamK (durT.flatMap (fun d => tokT.map (fun tk => d.2 + tk.2)))
    with hS
  have htokLen : tokT.length = beamK := by
    rw [hT, topkDesc_length, hdl]
    exact Nat.min_eq_left hbk
  have htok : ∀ p ∈ tokT, p.1 ≠ cfg.blank := by
    intro p hp
    have h1 := topkDesc_idx_lt (hT ▸ hp)
    rw [hdl] at h1
    omega
  have hfold := foldl_preserves
    (fun p : List (Hyp S) × List (Hyp S) =>
      (∀ g ∈ p.1, seqInv cfg.blank g.ySeq) ∧ (∀ g ∈ p.2, seqInv cfg.blank g.ySeq))
    (defaultTokenStep cfg t beamK h tokT durT) sums
    (fun b s hs hQ => by
      have hpos : 0 < beamK := by
        have hl : 0 < sums.length := List.length_pos.mpr (List.ne_nil_of_mem hs)
        rw [hS, topkDesc_length] at hl
        omega
      exact defaultTokenStep_inv cfg t beamK h tokT durT b s hh htok
        (by rw [htokLen]; exact Nat.mod_lt _ hpos) hQ.1 hQ.2)
    (hyps, kept) ⟨hhyps, hkept⟩
  refine ⟨hfold.1, ?_⟩
  intro g hg
  have hg2 := mem_removeDuplicate hg
  exact foldl_preserves (fun l : List (Hyp S) => ∀ g ∈ l, seqInv cfg.blank g.ySeq)
    (defaultBlankStep cfg h (o.tok t h.ySeq) (o.dur t h.ySeq) durT) durT
    (fun b d _ hQ => defaultBlankStep_inv cfg h _ _ durT b d hh hQ)
    _ hfold.2 g hg2

/-- The end-of-iteration bookkeeping only ever returns hypotheses it was
given in the future set. -/
theorem defaultTerminationCheck_subset (beam : ℕ) (hyps kept : List (Hyp S)) :
    ∀ g ∈ (defaultTerminationCheck beam hyps kept).1, g ∈ kept := by
  cases hyps with
  | nil =>
    intro g hg
    simp only [defaultTerminationCheck] at hg
    exact mem_sortDescScore (List.mem_of_mem_take hg)
  | cons a rest =>
    intro g hg
    simp only [defaultTerminationCheck] at hg
    split at hg
    · exact List.mem_of_mem_filter (mem_sortAscScore hg)
    · exact hg

/-- The inner loop of the default search keeps the sentinel shape. -/
theorem defaultInner_inv (cfg : TDTConfig S) (o : TDTOracle S)
    (t beamK dBeamK : ℕ)
    (hblank : cfg.vocabSize ≤ cfg.blank)
    (hlen : ∀ key, (o.tok t key).length = cfg.vocabSize + 1)
    (hbk : beamK ≤ cfg.vocabSize) :
    ∀ (fuel : ℕ) (hyps kept : List (Hyp S)),
      (∀ g ∈ hyps, seqInv cfg.blank g.ySeq) →
      (∀ g ∈ kept, seqInv cfg.blank g.ySeq) →
      ∀ g ∈ defaultInner cfg o t beamK dBeamK fuel hyps kept,
        seqInv cfg.blank g.ySeq := by
  intro fuel
  induction fuel with
  | zero =>
    intro hyps kept _ hk g hg
    simp only [defaultInner] at hg
    exact hk g hg
  | succ fuel ih =>
    intro hyps kept hhyps hk g hg
    simp only [defaultInner] at hg
    split at hg
    · exact hk g hg
    · rename_i maxHyp hyps' hpop
      obtain ⟨hm, hr⟩ := popMax_mem hyps maxHyp hyps' hpop
      have hek := defaultExpandHyp_inv cfg o t beamK dBeamK maxHyp hyps' kept hblank
        (hlen _) hbk (hhyps maxHyp hm) (fun x hx => hhyps x (hr x hx)) hk
      split at hg
      · exact hek.2 g (defaultTerminationCheck_subset cfg.beam _ _ g hg)
      · split at hg
        · exact hek.2 g (defaultTerminationCheck_subset cfg.beam _ _ g hg)
        · exact ih _ _ hek.1
            (fun x hx => hek.2 x (defaultTerminationCheck_subset cfg.beam _ _ x hx))
            g hg

/-- One frame of the default search keeps the sentinel shape. -/
theorem defaultFrame_inv (cfg : TDTConfig S) (o : TDTOracle S)
    (hblank : cfg.vocabSize ≤ cfg.blank)
    (hlen : ∀ t key, (o.tok t key).length = cfg.vocabSize + 1)
    (fuel t : ℕ) (kept : List (Hyp S))
    (hk : ∀ g ∈ kept, seqInv cfg.blank g.ySeq) :
    ∀ g ∈ defaultFrame cfg o fuel t kept, seqInv cfg.blank g.ySeq := by
  simp only [defaultFrame]
  exact defaultInner_inv cfg o t _ _ hblank (hlen t)
    (le_trans (Nat.min_le_right _ _) (Nat.sub_le _ _)) fuel _ _
    (fun g hg => hk g (List.mem_of_mem_filter hg))
    (fun g hg => hk g (List.mem_of_mem_filter hg))

/-- Every hypothesis surviving the default frame loop has the sentinel
shape. -/
theorem defaultKept_inv (cfg : TDTConfig S) (o : TDTOracle S)
    (hblank : cfg.vocabSize ≤ cfg.blank)
    (hlen : ∀ t key, (o.tok t key).length = cfg.vocabSize + 1)
    (T fuel : ℕ) :
    ∀ g ∈ defaultKept cfg o T fuel, seqInv cfg.blank g.ySeq := by
  unfold defaultKept
  refine foldl_preserves (fun kept => ∀ g ∈ kept, seqInv cfg.blank g.ySeq)
    (fun kept t => defaultFrame cfg o fuel t kept) (List.range T)
    (fun kept t _ hk => defaultFrame_inv cfg o hblank hlen fuel t kept hk) _ ?_
  intro g hg
  rw [List.mem_singleton.mp hg]
  exact ⟨rfl, fun x hx => absurd hx (List.not_mem_nil x)⟩

end TDT

namespace TDT

/-- C8: in both searches — the default beam search and the modified adaptive
expansion search — every returned hypothesis carries the sentinel blank at
position 0 of its token sequence and no blank at any later position, provided
the blank id is the final vocabulary position (`blank = vocab_size`, so
`vocab_size ≤ blank`) and the joint emits `vocab_size + 1` token
log-probabilities as the model contract promises.  The default search slices
the blank away before its token top-k and mAES routes blank expansions into a
branch that never appends, so only non-blank tokens are ever appended after
the sentinel. -/
theorem claim_C8_sentinel {F : Type} [LinearOrderedField F] (cfg : TDTConfig F)
    (o : TDTOracle F) (hblank : cfg.vocabSize ≤ cfg.blank)
    (hlen : ∀ t key, (o.tok t key).length = cfg.vocabSize + 1) (T fuel : ℕ) :
    (∀ g ∈ defaultBeamSearch cfg o T fuel, seqInv cfg.blank g.ySeq) ∧
    (∀ g ∈ maesSearch cfg o T, seqInv cfg.blank g.ySeq) := by
  constructor
  · intro g hg
    exact defaultKept_inv cfg o hblank hlen T fuel g (mem_sortNBest hg)
  · intro g hg
    exact maesKept_inv cfg o T g (mem_sortNBest hg)

/-- C8 witness. -/
theorem claim_C8_sentinel_witness :
    (∀ g ∈ defaultBeamSearch C8cfg C8oracle 1 3, seqInv C8cfg.blank g.ySeq) ∧
    (∀ g ∈ maesSearch C8cfg C8oracle 1, seqInv C8cfg.blank g.ySeq) :=
  claim_C8_sentinel C8cfg C8oracle (by decide) (fun t key => rfl) 1 3

end TDT
